import Mathlib

/-!
# Verification of the sosistab core against its specification

This file gives a shallow embedding, in Lean 4, of the parts of the
sosistab transport that the specification's testable claims are about:

* the session-layer replay filter and the receive machine's emission
  gating (`src/session/machine.rs`),
* the per-stream inflight tracker and its bandwidth estimator
  (`src/mux/relconn/inflight.rs`, `src/mux/relconn/inflight/calc.rs`),
* the `DataFrameV2` varint wire codec with padding (`src/protocol.rs`),
* the listener session table (`src/listener/table.rs`),
* the CUBIC congestion controller (`src/mux/congestion/cubic.rs`),
* the thread-local packet-buffer pool (`src/buffer.rs`),
* the client shard dispatcher's outlier detection (`src/client/inner.rs`).

Modelling conventions:

* Rust `u64`/`u8`/`usize` values are `Nat`s; wrapping arithmetic is made
  explicit with `% 2 ^ 64` at the one place the source can underflow.
* `Instant`s are rationals, and functions that call `Instant::now()` in
  the source take the current time `now : ℚ` as an explicit argument.
* `f64` quantities that only flow through arithmetic that is exact on
  the inputs of interest (congestion windows, delivery rates) are
  modelled as rationals; the opaque float computations (the RTT
  estimator's Gaussian quantiles and CUBIC's `powf(0.3333)` cube root)
  are passed in as explicit rational parameters wherever the source
  reads them.
* `FxHashSet` is modelled as a `Finset`; `while` loops are modelled by
  structural recursion on an explicit fuel argument that provably
  dominates the number of iterations, so that all definitions compute.
-/

set_option maxRecDepth 10000

namespace Sosistab

/-! ## The session replay filter (`src/session/machine.rs`, lines 140-166)

```rust
struct ReplayFilter {
    top_seqno: u64,
    bottom_seqno: u64,
    seen_seqno: FxHashSet<u64>,
}
```
-/

/-- The replay filter state.  Seqnos are `u64`, modelled as `ℕ`; no
arithmetic in `add` can overflow `u64` for in-range inputs. -/
structure ReplayFilter where
  top_seqno : ℕ
  bottom_seqno : ℕ
  seen_seqno : Finset ℕ
  deriving DecidableEq

/-- `ReplayFilter::default()`: everything zero / empty. -/
def ReplayFilter.init : ReplayFilter := ⟨0, 0, ∅⟩

/-- The eviction loop body of `ReplayFilter::add`:
`while self.top_seqno - self.bottom_seqno > 10000 {
   self.seen_seqno.remove(&self.bottom_seqno); self.bottom_seqno += 1; }`.
The loop advances `bottom` while `top - bottom > 10000`, so it runs at
most `top - bottom` times; `fuel` is instantiated with that bound. -/
def replayEvictFuel (top : ℕ) : ℕ → ℕ → Finset ℕ → ℕ × Finset ℕ
  | 0, bottom, seen => (bottom, seen)
  | fuel + 1, bottom, seen =>
    if top - bottom > 10000 then replayEvictFuel top fuel (bottom + 1) (seen.erase bottom)
    else (bottom, seen)

/-- The eviction loop of `ReplayFilter::add`, with the fuel instantiated
at the dominating bound `top - bottom`. -/
def replayEvict (top bottom : ℕ) (seen : Finset ℕ) : ℕ × Finset ℕ :=
  replayEvictFuel top (top - bottom) bottom seen

/-- `ReplayFilter::add` (machine.rs lines 149-165).  Returns the bool
result together with the updated filter. -/
def ReplayFilter.add (f : ReplayFilter) (seqno : ℕ) : Bool × ReplayFilter :=
  if seqno < f.bottom_seqno then (false, f)
  else if seqno ∈ f.seen_seqno then (false, f)
  else
    let seen := insert seqno f.seen_seqno
    let top := max seqno f.top_seqno
    let be := replayEvict top f.bottom_seqno seen
    (true, ⟨top, be.1, be.2⟩)

/-- Well-formedness of a replay filter state: `bottom ≤ top`, the window
is at most 10000 wide, and every seen seqno lies in the window.  This
holds in the initial state and is preserved by `add`. -/
def ReplayFilter.WF (f : ReplayFilter) : Prop :=
  f.bottom_seqno ≤ f.top_seqno ∧
  f.top_seqno - f.bottom_seqno ≤ 10000 ∧
  f.seen_seqno ⊆ Finset.Icc f.bottom_seqno f.top_seqno

instance (f : ReplayFilter) : Decidable f.WF := by
  unfold ReplayFilter.WF
  infer_instance

/-- A seqno is dead for a filter when `add` can never again return
`true` for it: it is recorded as seen, or it is below the window. -/
def ReplayFilter.Dead (f : ReplayFilter) (s : ℕ) : Prop :=
  s ∈ f.seen_seqno ∨ s < f.bottom_seqno

theorem replayEvictFuel_bottom_le (top : ℕ) :
    ∀ (fuel bottom : ℕ) (seen : Finset ℕ),
      bottom ≤ (replayEvictFuel top fuel bottom seen).1 := by
  intro fuel
  induction fuel with
  | zero => intro bottom seen; simp [replayEvictFuel]
  | succ n ih =>
    intro bottom seen
    simp only [replayEvictFuel]
    split
    · exact le_trans (Nat.le_succ bottom) (ih (bottom + 1) (seen.erase bottom))
    · exact le_refl bottom

theorem replayEvictFuel_le_top (top : ℕ) :
    ∀ (fuel bottom : ℕ) (seen : Finset ℕ), bottom ≤ top →
      (replayEvictFuel top fuel bottom seen).1 ≤ top := by
  intro fuel
  induction fuel with
  | zero => intro bottom seen h; simpa [replayEvictFuel] using h
  | succ n ih =>
    intro bottom seen h
    simp only [replayEvictFuel]
    split
    · exact ih (bottom + 1) (seen.erase bottom) (by omega)
    · exact h

/-- With enough fuel, the loop stops exactly at `max bottom (top - 10000)`. -/
theorem replayEvictFuel_fst (top : ℕ) :
    ∀ (fuel bottom : ℕ) (seen : Finset ℕ), top - bottom ≤ fuel + 10000 →
      (replayEvictFuel top fuel bottom seen).1 = max bottom (top - 10000) := by
  intro fuel
  induction fuel with
  | zero => intro bottom seen h; simp [replayEvictFuel]; omega
  | succ n ih =>
    intro bottom seen h
    simp only [replayEvictFuel]
    split
    · rw [ih (bottom + 1) (seen.erase bottom) (by omega)]
      omega
    · omega

/-- Membership in the final seen set: exactly the seqnos in
`[bottom, bottom')` are evicted, where `bottom'` is the final bottom. -/
theorem replayEvictFuel_mem (top : ℕ) :
    ∀ (fuel bottom : ℕ) (seen : Finset ℕ) (x : ℕ),
      (x ∈ (replayEvictFuel top fuel bottom seen).2 ↔
        x ∈ seen ∧ (x < bottom ∨ (replayEvictFuel top fuel bottom seen).1 ≤ x)) := by
  intro fuel
  induction fuel with
  | zero =>
    intro bottom seen x
    simp only [replayEvictFuel]
    constructor
    · intro hx; exact ⟨hx, by omega⟩
    · rintro ⟨hx, _⟩; exact hx
  | succ n ih =>
    intro bottom seen x
    simp only [replayEvictFuel]
    split
    · rw [ih (bottom + 1) (seen.erase bottom) x, Finset.mem_erase]
      have hb := replayEvictFuel_bottom_le top n (bottom + 1) (seen.erase bottom)
      constructor
      · rintro ⟨⟨hne, hmem⟩, hrange⟩
        exact ⟨hmem, by omega⟩
      · rintro ⟨hmem, hrange⟩
        exact ⟨⟨by omega, hmem⟩, by omega⟩
    · constructor
      · intro hx; exact ⟨hx, by omega⟩
      · rintro ⟨hx, _⟩; exact hx

/-- `add` leaves the filter unchanged and returns `false` on a dead
seqno (below the window or already seen). -/
theorem ReplayFilter.add_of_dead (f : ReplayFilter) (s : ℕ) (h : f.Dead s) :
    f.add s = (false, f) := by
  by_cases hb : s < f.bottom_seqno
  · simp [ReplayFilter.add, hb]
  · have hs : s ∈ f.seen_seqno := by
      rcases h with h | h
      · exact h
      · exact absurd h hb
    simp [ReplayFilter.add, hb, hs]

/-- `add` returns `true` exactly on non-dead seqnos. -/
theorem ReplayFilter.add_true_iff (f : ReplayFilter) (s : ℕ) :
    (f.add s).1 = true ↔ ¬ f.Dead s := by
  unfold ReplayFilter.add ReplayFilter.Dead
  by_cases hb : s < f.bottom_seqno
  · simp [hb]
  · by_cases hs : s ∈ f.seen_seqno <;> simp [hb, hs]

/-- On a successful `add`, the resulting state's fields, in terms of the
eviction loop. -/
theorem ReplayFilter.add_true_eq (f : ReplayFilter) (s : ℕ) (h : ¬ f.Dead s) :
    f.add s =
      (true,
        ⟨max s f.top_seqno,
         (replayEvict (max s f.top_seqno) f.bottom_seqno (insert s f.seen_seqno)).1,
         (replayEvict (max s f.top_seqno) f.bottom_seqno (insert s f.seen_seqno)).2⟩) := by
  rw [ReplayFilter.Dead, not_or] at h
  have hb : ¬ s < f.bottom_seqno := h.2
  simp [ReplayFilter.add, hb, h.1]

/-- Death is permanent: anything dead before an `add` stays dead. -/
theorem ReplayFilter.add_dead_mono (f : ReplayFilter) (s x : ℕ) (h : f.Dead x) :
    ((f.add s).2).Dead x := by
  by_cases hdead : f.Dead s
  · rw [f.add_of_dead s hdead]; exact h
  · rw [f.add_true_eq s hdead]
    rcases h with hseen | hbot
    · -- x was seen: either it survives eviction, or it sinks below the new bottom
      by_cases hx : (replayEvict (max s f.top_seqno) f.bottom_seqno (insert s f.seen_seqno)).1 ≤ x
      · left
        rw [replayEvict, replayEvictFuel_mem]
        exact ⟨Finset.mem_insert_of_mem hseen, Or.inr (by rwa [replayEvict] at hx)⟩
      · right
        simpa using Nat.lt_of_not_le hx
    · -- x was below the old bottom, which never decreases
      right
      have := replayEvictFuel_bottom_le (max s f.top_seqno)
        (max s f.top_seqno - f.bottom_seqno) f.bottom_seqno (insert s f.seen_seqno)
      simp only [replayEvict]
      omega

/-- A successfully added seqno is dead afterwards. -/
theorem ReplayFilter.add_true_dead_self (f : ReplayFilter) (s : ℕ)
    (h : (f.add s).1 = true) : ((f.add s).2).Dead s := by
  have hnd : ¬ f.Dead s := (f.add_true_iff s).1 h
  rw [f.add_true_eq s hnd]
  by_cases hx : (replayEvict (max s f.top_seqno) f.bottom_seqno (insert s f.seen_seqno)).1 ≤ s
  · left
    rw [replayEvict, replayEvictFuel_mem]
    exact ⟨Finset.mem_insert_self s _, Or.inr (by rwa [replayEvict] at hx)⟩
  · right
    simpa using Nat.lt_of_not_le hx

/-- The replay filter is idempotent, in any state: after a successful
`add s`, an immediately repeated `add s` returns `false`. -/
theorem ReplayFilter.add_add_false (f : ReplayFilter) (s : ℕ)
    (h : (f.add s).1 = true) : (((f.add s).2).add s).1 = false := by
  have := ((f.add s).2).add_of_dead s (f.add_true_dead_self s h)
  rw [this]

/-- `add` preserves well-formedness. -/
theorem ReplayFilter.add_WF (f : ReplayFilter) (s : ℕ) (hwf : f.WF) :
    ((f.add s).2).WF := by
  by_cases hdead : f.Dead s
  · rw [f.add_of_dead s hdead]; exact hwf
  · rw [f.add_true_eq s hdead]
    obtain ⟨hbt, hwin, hsub⟩ := hwf
    rw [ReplayFilter.Dead, not_or] at hdead
    have hfst :
        (replayEvict (max s f.top_seqno) f.bottom_seqno (insert s f.seen_seqno)).1 =
          max f.bottom_seqno (max s f.top_seqno - 10000) := by
      rw [replayEvict]
      exact replayEvictFuel_fst _ _ _ _ (by omega)
    refine ⟨?_, ?_, ?_⟩
    · simp only [hfst]; omega
    · simp only [hfst]; omega
    · intro x hx
      rw [replayEvict, replayEvictFuel_mem] at hx
      obtain ⟨hmem, hrange⟩ := hx
      rw [← replayEvict] at hrange
      have hxtop : x ≤ max s f.top_seqno := by
        rcases Finset.mem_insert.1 hmem with rfl | hmem'
        · omega
        · have := hsub hmem'
          rw [Finset.mem_Icc] at this
          omega
      have hxbot : (replayEvict (max s f.top_seqno) f.bottom_seqno (insert s f.seen_seqno)).1 ≤ x := by
        rcases hrange with hlt | hge
        · -- impossible: x below the old bottom cannot be in the inserted set
          exfalso
          rcases Finset.mem_insert.1 hmem with rfl | hmem'
          · omega
          · have := hsub hmem'
            rw [Finset.mem_Icc] at this
            omega
        · exact hge
      rw [Finset.mem_Icc]
      exact ⟨hxbot, hxtop⟩

/-- The initial filter state is well-formed. -/
theorem ReplayFilter.init_WF : ReplayFilter.init.WF := by decide

/-- In a well-formed state the seen set has at most 10001 elements. -/
theorem ReplayFilter.card_le (f : ReplayFilter) (hwf : f.WF) :
    f.seen_seqno.card ≤ 10001 := by
  obtain ⟨hbt, hwin, hsub⟩ := hwf
  calc f.seen_seqno.card ≤ (Finset.Icc f.bottom_seqno f.top_seqno).card :=
        Finset.card_le_card hsub
    _ = f.top_seqno + 1 - f.bottom_seqno := Nat.card_Icc _ _
    _ ≤ 10001 := by omega

/-- In a well-formed state, a successfully added seqno is present in the
seen set afterwards (it is never evicted by its own `add`). -/
theorem ReplayFilter.add_mem_self (f : ReplayFilter) (s : ℕ) (hwf : f.WF)
    (h : ¬ f.Dead s) : s ∈ ((f.add s).2).seen_seqno := by
  rw [f.add_true_eq s h]
  obtain ⟨hbt, hwin, _⟩ := hwf
  rw [ReplayFilter.Dead, not_or] at h
  have hfst :
      (replayEvict (max s f.top_seqno) f.bottom_seqno (insert s f.seen_seqno)).1 =
        max f.bottom_seqno (max s f.top_seqno - 10000) := by
    rw [replayEvict]
    exact replayEvictFuel_fst _ _ _ _ (by omega)
  rw [replayEvict, replayEvictFuel_mem]
  refine ⟨Finset.mem_insert_self s _, Or.inr ?_⟩
  rw [← replayEvict, hfst]
  omega

/-! ## The receive machine (`src/session/machine.rs`, lines 66-137)

`RecvMachine::process_ng` decrypts, depads and then dispatches.  For
the replay-gating claims only the dispatch matters, so an incoming
packet is modelled post-decryption/depadding as one of:

* a `Data` frame carrying a `frame_no` and a `body`,
* a `Parity` frame, represented by the list of `(seqno, body)` pairs
  that `OobDecoder::insert_parity` returns for it (the Reed-Solomon
  reconstruction itself is outside the replay logic; quantifying over
  arbitrary reconstruction results covers every behaviour of the real
  decoder, which is sound for the claims proved about emissions),
* `undecodable` (AEAD failure or `depad` returning `None`): no
  emissions, no state change.

Bodies are abstracted to `ℕ` identifiers; emissions are `(body,
frame_no)` pairs exactly as in the source. -/

/-- One incoming packet, as seen by the dispatch logic of `process_ng`. -/
inductive RecvEvent where
  | data (frame_no : ℕ) (body : ℕ)
  | parity (recon : List (ℕ × ℕ))
  | undecodable
  deriving DecidableEq

/-- The `for (i, body) in res { if self.replay_filter.add(i) {
toret.push((body, i)); } }` loop of the `Parity` arm. -/
def parityLoop (f : ReplayFilter) : List (ℕ × ℕ) → ReplayFilter × List (ℕ × ℕ)
  | [] => (f, [])
  | (i, body) :: rest =>
    let r := f.add i
    let rec' := parityLoop r.2 rest
    if r.1 then (rec'.1, (body, i) :: rec'.2) else (rec'.1, rec'.2)

/-- `RecvMachine::process_ng`, restricted to its replay-filter state and
its emissions (the loss recorder, ping calculator and OOB data cache do
not influence emissions or the filter). -/
def processNg (f : ReplayFilter) : RecvEvent → ReplayFilter × List (ℕ × ℕ)
  | .data frame_no body =>
    let r := f.add frame_no
    if r.1 then (r.2, [(body, frame_no)]) else (r.2, [])
  | .parity recon => parityLoop f recon
  | .undecodable => (f, [])

/-- Processing a whole sequence of incoming packets, concatenating the
emissions of each call in order. -/
def processTrace (f : ReplayFilter) : List RecvEvent → ReplayFilter × List (ℕ × ℕ)
  | [] => (f, [])
  | e :: rest =>
    let r := processNg f e
    let rec' := processTrace r.1 rest
    (rec'.1, r.2 ++ rec'.2)

/-- The emission properties of the parity loop: dead seqnos stay dead,
every emission is dead afterwards and was not dead before, and the
emitted frame numbers are distinct. -/
theorem parityLoop_spec (recon : List (ℕ × ℕ)) : ∀ (f : ReplayFilter),
    (∀ x, f.Dead x → ((parityLoop f recon).1).Dead x) ∧
    (∀ p ∈ (parityLoop f recon).2, ((parityLoop f recon).1).Dead p.2) ∧
    (∀ p ∈ (parityLoop f recon).2, ¬ f.Dead p.2) ∧
    ((parityLoop f recon).2.map Prod.snd).Nodup := by
  induction recon with
  | nil => intro f; simp [parityLoop]
  | cons hd tl ih =>
    intro f
    obtain ⟨i, body⟩ := hd
    obtain ⟨ihmono, ihdead, ihnew, ihnodup⟩ := ih (f.add i).2
    by_cases hok : (f.add i).1 = true
    · have hne : ¬ f.Dead i := (f.add_true_iff i).1 hok
      have hstep : parityLoop f ((i, body) :: tl) =
          ((parityLoop (f.add i).2 tl).1, (body, i) :: (parityLoop (f.add i).2 tl).2) := by
        simp [parityLoop, hok]
      rw [hstep]
      refine ⟨?_, ?_, ?_, ?_⟩
      · intro x hx
        exact ihmono x (f.add_dead_mono i x hx)
      · intro p hp
        rcases List.mem_cons.1 hp with rfl | hp'
        · exact ihmono i (f.add_true_dead_self i hok)
        · exact ihdead p hp'
      · intro p hp
        rcases List.mem_cons.1 hp with rfl | hp'
        · exact hne
        · intro hdead
          exact ihnew p hp' (f.add_dead_mono i p.2 hdead)
      · simp only [List.map_cons, List.nodup_cons]
        refine ⟨?_, ihnodup⟩
        intro hmem
        rw [List.mem_map] at hmem
        obtain ⟨p, hp, hpi⟩ := hmem
        exact ihnew p hp (hpi ▸ f.add_true_dead_self i hok)
    · have hdead : f.Dead i := by
        by_contra hc
        exact hok ((f.add_true_iff i).2 hc)
      have hf : f.add i = (false, f) := f.add_of_dead i hdead
      have hstep : parityLoop f ((i, body) :: tl) = parityLoop f tl := by
        simp [parityLoop, hf]
      obtain ⟨ihmono', ihdead', ihnew', ihnodup'⟩ := ih f
      rw [hstep]
      exact ⟨ihmono', ihdead', ihnew', ihnodup'⟩

/-- The same emission properties for a single `process_ng` call. -/
theorem processNg_spec (f : ReplayFilter) (e : RecvEvent) :
    (∀ x, f.Dead x → ((processNg f e).1).Dead x) ∧
    (∀ p ∈ (processNg f e).2, ((processNg f e).1).Dead p.2) ∧
    (∀ p ∈ (processNg f e).2, ¬ f.Dead p.2) ∧
    ((processNg f e).2.map Prod.snd).Nodup := by
  cases e with
  | data frame_no body =>
    by_cases hok : (f.add frame_no).1 = true
    · have hne : ¬ f.Dead frame_no := (f.add_true_iff frame_no).1 hok
      have hstep : processNg f (.data frame_no body) =
          ((f.add frame_no).2, [(body, frame_no)]) := by
        simp [processNg, hok]
      rw [hstep]
      refine ⟨fun x hx => f.add_dead_mono frame_no x hx, ?_, ?_, by simp⟩
      · intro p hp
        rcases List.mem_singleton.1 hp with rfl
        exact f.add_true_dead_self frame_no hok
      · intro p hp
        rcases List.mem_singleton.1 hp with rfl
        exact hne
    · have hdead : f.Dead frame_no := by
        by_contra hc
        exact hok ((f.add_true_iff frame_no).2 hc)
      have hf : f.add frame_no = (false, f) := f.add_of_dead frame_no hdead
      have hstep : processNg f (.data frame_no body) = (f, []) := by
        simp [processNg, hf]
      rw [hstep]
      exact ⟨fun x hx => hx, by simp, by simp, by simp⟩
  | parity recon => exact parityLoop_spec recon f
  | undecodable => exact ⟨fun x hx => hx, by simp [processNg], by simp [processNg], by simp [processNg]⟩

/-- The emission properties of a whole trace. -/
theorem processTrace_spec (events : List RecvEvent) : ∀ (f : ReplayFilter),
    (∀ x, f.Dead x → ((processTrace f events).1).Dead x) ∧
    (∀ p ∈ (processTrace f events).2, ((processTrace f events).1).Dead p.2) ∧
    (∀ p ∈ (processTrace f events).2, ¬ f.Dead p.2) ∧
    ((processTrace f events).2.map Prod.snd).Nodup := by
  induction events with
  | nil =>
    intro f
    exact ⟨fun x hx => hx, by simp [processTrace], by simp [processTrace], by simp [processTrace]⟩
  | cons e rest ih =>
    intro f
    obtain ⟨emono, edead, enew, enodup⟩ := processNg_spec f e
    obtain ⟨ihmono, ihdead, ihnew, ihnodup⟩ := ih (processNg f e).1
    have hstep : processTrace f (e :: rest) =
        ((processTrace (processNg f e).1 rest).1,
          (processNg f e).2 ++ (processTrace (processNg f e).1 rest).2) := by
      simp [processTrace]
    rw [hstep]
    refine ⟨?_, ?_, ?_, ?_⟩
    · intro x hx
      exact ihmono x (emono x hx)
    · intro p hp
      rcases List.mem_append.1 hp with hp' | hp'
      · exact ihmono p.2 (edead p hp')
      · exact ihdead p hp'
    · intro p hp hdead
      rcases List.mem_append.1 hp with hp' | hp'
      · exact enew p hp' hdead
      · exact ihnew p hp' (emono p.2 hdead)
    · rw [List.map_append, List.nodup_append]
      refine ⟨enodup, ihnodup, ?_⟩
      intro a ha hb
      rw [List.mem_map] at ha hb
      obtain ⟨p, hp, hpa⟩ := ha
      obtain ⟨q, hq, hqa⟩ := hb
      apply ihnew q hq
      rw [hqa, ← hpa]
      exact edead p hp

/-- **C2.** For the session replay filter: `add s` returns `false` (and
changes nothing) if `s` is below `bottom_seqno` or already in the seen
set; otherwise it inserts `s`, returns `true`, and advances
`bottom_seqno` (evicting the oldest seqnos) to
`max bottom_seqno (top_seqno' - 10000)`; consequently
`top_seqno - bottom_seqno` never exceeds 10000 and the seen set stays
bounded; and in any state, if `add s` returns `true` then an
immediately following `add s` returns `false`. -/
theorem claim_C2_replay_add (f : ReplayFilter) (s : ℕ) (hwf : f.WF) :
    ((s < f.bottom_seqno ∨ s ∈ f.seen_seqno) → f.add s = (false, f)) ∧
    (¬(s < f.bottom_seqno ∨ s ∈ f.seen_seqno) →
      (f.add s).1 = true ∧
      s ∈ ((f.add s).2).seen_seqno ∧
      ((f.add s).2).bottom_seqno =
        max f.bottom_seqno (((f.add s).2).top_seqno - 10000)) ∧
    ((f.add s).2).top_seqno - ((f.add s).2).bottom_seqno ≤ 10000 ∧
    ((f.add s).2).seen_seqno.card ≤ 10001 ∧
    ((f.add s).1 = true → (((f.add s).2).add s).1 = false) := by
  have hwf' : ((f.add s).2).WF := f.add_WF s hwf
  refine ⟨?_, ?_, hwf'.2.1, ReplayFilter.card_le _ hwf', f.add_add_false s⟩
  · intro h
    exact f.add_of_dead s h.symm
  · intro h
    have hnd : ¬ f.Dead s := fun hc => h hc.symm
    refine ⟨(f.add_true_iff s).2 hnd, f.add_mem_self s hwf hnd, ?_⟩
    rw [f.add_true_eq s hnd]
    simp only
    rw [replayEvict]
    exact replayEvictFuel_fst _ _ _ _ (by omega)

/-- Witness for C2 at the initial filter state and seqno 0. -/
theorem claim_C2_replay_add_witness :
    ReplayFilter.init.WF ∧ ((ReplayFilter.init.add 0).2).seen_seqno.card ≤ 10001 :=
  ⟨by decide, (claim_C2_replay_add ReplayFilter.init 0 (by decide)).2.2.2.1⟩

/-- **C1, counterexample.** The emitted frame numbers of a session are
*not* strictly increasing over the life of the session: receiving Data
frame 5 and then Data frame 3 (both within the replay window) emits
`(body, 5)` followed by `(body, 3)`. -/
theorem claim_C1_counterexample :
    ((processTrace ReplayFilter.init
        [RecvEvent.data 5 10, RecvEvent.data 3 11]).2.map Prod.snd) = [5, 3] ∧
    ¬ List.Chain' (· < ·)
      ((processTrace ReplayFilter.init
        [RecvEvent.data 5 10, RecvEvent.data 3 11]).2.map Prod.snd) := by
  constructor
  · rfl
  · intro h
    rw [show ((processTrace ReplayFilter.init
        [RecvEvent.data 5 10, RecvEvent.data 3 11]).2.map Prod.snd) = [5, 3] from rfl] at h
    simp [List.chain'_cons] at h

/-- **C1 (amended).** For every Session receive machine, every `(body,
frame_no)` pair emitted by `process` — whether a directly received Data
frame or a frame reconstructed by the OOB FEC decoder — was accepted by
the replay filter, and no two emissions over the life of the session
ever share the same `frame_no` (each emitted frame number is recorded
as seen/expired in the filter, so it can never be accepted again).  The
emitted frame numbers are *not* necessarily strictly increasing:
out-of-order arrivals inside the replay window are emitted in arrival
order. -/
theorem claim_C1_emission_gating (events : List RecvEvent) :
    ((processTrace ReplayFilter.init events).2.map Prod.snd).Nodup ∧
    ∀ p ∈ (processTrace ReplayFilter.init events).2,
      ((processTrace ReplayFilter.init events).1).Dead p.2 := by
  obtain ⟨hmono, hdead, hnew, hnodup⟩ := processTrace_spec events ReplayFilter.init
  exact ⟨hnodup, hdead⟩

/-- Witness for C1 on a concrete two-packet trace. -/
theorem claim_C1_emission_gating_witness :
    ((processTrace ReplayFilter.init
        [RecvEvent.data 5 10, RecvEvent.data 3 11]).2.map Prod.snd).Nodup ∧
    ∀ p ∈ (processTrace ReplayFilter.init
        [RecvEvent.data 5 10, RecvEvent.data 3 11]).2,
      ((processTrace ReplayFilter.init
        [RecvEvent.data 5 10, RecvEvent.data 3 11]).1).Dead p.2 :=
  claim_C1_emission_gating [RecvEvent.data 5 10, RecvEvent.data 3 11]

/-! ## The wire codec (`src/protocol.rs`, lines 49-99)

`DataFrameV2` is serialized by bincode with `with_little_endian()` and
`with_varint_encoding()`: enum variant indices are varint-encoded
`u32`s, `u64`/`usize` fields are varint-encoded, `u8` fields are single
bytes, and byte bodies are a varint length followed by the raw bytes.
bincode's unsigned varint: values below 251 are a single byte; then
`251` + 2-byte LE, `252` + 4-byte LE, `253` + 8-byte LE.  Bytes are
modelled as `ℕ`s (well-formed inputs keep them below 256). -/

/-- `w`-byte little-endian encoding of `n`. -/
def natToLE : ℕ → ℕ → List ℕ
  | 0, _ => []
  | w + 1, n => n % 256 :: natToLE w (n / 256)

/-- Read exactly `w` bytes as a little-endian number. -/
def readLE : ℕ → List ℕ → Option (ℕ × List ℕ)
  | 0, bts => some (0, bts)
  | _ + 1, [] => none
  | w + 1, b :: rest => (readLE w rest).map (fun vr => (b + 256 * vr.1, vr.2))

theorem readLE_natToLE : ∀ (w n : ℕ) (rest : List ℕ), n < 256 ^ w →
    readLE w (natToLE w n ++ rest) = some (n, rest) := by
  intro w
  induction w with
  | zero =>
    intro n rest h
    interval_cases n
    simp [natToLE, readLE]
  | succ w ih =>
    intro n rest h
    have hdiv : n / 256 < 256 ^ w := by
      rw [Nat.div_lt_iff_lt_mul (by norm_num)]
      calc n < 256 ^ (w + 1) := h
        _ = 256 ^ w * 256 := by ring
    show (readLE w (natToLE w (n / 256) ++ rest)).map
        (fun vr => (n % 256 + 256 * vr.1, vr.2)) = some (n, rest)
    rw [ih (n / 256) rest hdiv]
    simp [Nat.mod_add_div]

/-- bincode's unsigned varint encoding (`VarintEncoding`, little-endian). -/
def varint (n : ℕ) : List ℕ :=
  if n < 251 then [n]
  else if n < 2 ^ 16 then 251 :: natToLE 2 n
  else if n < 2 ^ 32 then 252 :: natToLE 4 n
  else 253 :: natToLE 8 n

/-- bincode's unsigned varint decoding. -/
def parseVarint : List ℕ → Option (ℕ × List ℕ)
  | [] => none
  | b :: rest =>
    if b < 251 then some (b, rest)
    else if b = 251 then readLE 2 rest
    else if b = 252 then readLE 4 rest
    else if b = 253 then readLE 8 rest
    else none

theorem parseVarint_varint (n : ℕ) (rest : List ℕ) (h : n < 2 ^ 64) :
    parseVarint (varint n ++ rest) = some (n, rest) := by
  by_cases h1 : n < 251
  · simp [varint, parseVarint, h1]
  · by_cases h2 : n < 2 ^ 16
    · have h2' : n < 256 ^ 2 := by norm_num at h2 ⊢; omega
      have hv : varint n = 251 :: natToLE 2 n := by rw [varint, if_neg h1, if_pos h2]
      rw [hv, List.cons_append]
      simp only [parseVarint]
      norm_num [readLE_natToLE 2 n rest h2']
    · by_cases h3 : n < 2 ^ 32
      · have h3' : n < 256 ^ 4 := by norm_num at h3 ⊢; omega
        have hv : varint n = 252 :: natToLE 4 n := by
          rw [varint, if_neg h1, if_neg h2, if_pos h3]
        rw [hv, List.cons_append]
        simp only [parseVarint]
        norm_num [readLE_natToLE 4 n rest h3']
      · have h8 : n < 256 ^ 8 := by norm_num at h ⊢; omega
        have hv : varint n = 253 :: natToLE 8 n := by
          rw [varint, if_neg h1, if_neg h2, if_neg h3]
        rw [hv, List.cons_append]
        simp only [parseVarint]
        norm_num [readLE_natToLE 8 n rest h8]

/-- serde-bytes serialization of a byte body: varint length, then raw. -/
def serBytes (body : List ℕ) : List ℕ := varint body.length ++ body

/-- serde-bytes deserialization. -/
def parseBytes (bts : List ℕ) : Option (List ℕ × List ℕ) :=
  match parseVarint bts with
  | none => none
  | some (len, rest) =>
    if len ≤ rest.length then some (rest.take len, rest.drop len) else none

theorem parseBytes_serBytes (body rest : List ℕ) (h : body.length < 2 ^ 64) :
    parseBytes (serBytes body ++ rest) = some (body, rest) := by
  simp only [serBytes, List.append_assoc, parseBytes, parseVarint_varint body.length _ h]
  rw [if_pos (by simp)]
  rw [List.take_left, List.drop_left]

/-- `DataFrameV2` (protocol.rs lines 51-70); bodies as raw byte lists. -/
inductive DataFrameV2 where
  | data (frame_no high_recv_frame_no total_recv_frames : ℕ) (body : List ℕ)
  | parity (data_frame_first data_count parity_count parity_index pad_size : ℕ)
      (body : List ℕ)
  deriving DecidableEq

/-- Field bounds from the Rust types: `u64` fields (and `usize`
`pad_size`, and body lengths) below `2 ^ 64`, `u8` fields and body bytes
below 256. -/
def DataFrameV2.WF : DataFrameV2 → Prop
  | .data fno hi tot body =>
    fno < 2 ^ 64 ∧ hi < 2 ^ 64 ∧ tot < 2 ^ 64 ∧ body.length < 2 ^ 64 ∧ ∀ b ∈ body, b < 256
  | .parity dff dc pc pi ps body =>
    dff < 2 ^ 64 ∧ dc < 256 ∧ pc < 256 ∧ pi < 256 ∧ ps < 2 ^ 64 ∧
      body.length < 2 ^ 64 ∧ ∀ b ∈ body, b < 256

instance (f : DataFrameV2) : Decidable f.WF := by
  cases f <;> (unfold DataFrameV2.WF; infer_instance)

/-- bincode varint serialization of a `DataFrameV2` (the enum tag is a
varint `u32`, the `u8` fields single bytes, in declaration order). -/
def serFrame : DataFrameV2 → List ℕ
  | .data fno hi tot body =>
    varint 0 ++ varint fno ++ varint hi ++ varint tot ++ serBytes body
  | .parity dff dc pc pi ps body =>
    varint 1 ++ varint dff ++ [dc] ++ [pc] ++ [pi] ++ varint ps ++ serBytes body

/-- Read one raw byte (bincode `u8` deserialization). -/
def readByte : List ℕ → Option (ℕ × List ℕ)
  | [] => none
  | b :: rest => some (b, rest)

/-- bincode deserialization of a `DataFrameV2` from a prefix of the
input, returning the unconsumed suffix. -/
def parseFrame (bts : List ℕ) : Option (DataFrameV2 × List ℕ) :=
  match parseVarint bts with
  | none => none
  | some (tag, r0) =>
    if tag = 0 then
      match parseVarint r0 with
      | none => none
      | some (fno, r1) =>
        match parseVarint r1 with
        | none => none
        | some (hi, r2) =>
          match parseVarint r2 with
          | none => none
          | some (tot, r3) =>
            match parseBytes r3 with
            | none => none
            | some (body, r4) => some (.data fno hi tot body, r4)
    else if tag = 1 then
      match parseVarint r0 with
      | none => none
      | some (dff, r1) =>
        match readByte r1 with
        | none => none
        | some (dc, r2) =>
          match readByte r2 with
          | none => none
          | some (pc, r3) =>
            match readByte r3 with
            | none => none
            | some (pi, r4) =>
              match parseVarint r4 with
              | none => none
              | some (ps, r5) =>
                match parseBytes r5 with
                | none => none
                | some (body, r6) => some (.parity dff dc pc pi ps body, r6)
    else none

theorem parseFrame_serFrame (f : DataFrameV2) (rest : List ℕ) (hwf : f.WF) :
    parseFrame (serFrame f ++ rest) = some (f, rest) := by
  cases f with
  | data fno hi tot body =>
    obtain ⟨h1, h2, h3, h4, _⟩ := hwf
    simp only [serFrame, List.append_assoc, parseFrame,
      parseVarint_varint 0 _ (by norm_num), parseVarint_varint fno _ h1,
      parseVarint_varint hi _ h2, parseVarint_varint tot _ h3,
      parseBytes_serBytes body rest h4]
    simp
  | parity dff dc pc pi ps body =>
    obtain ⟨h1, _, _, _, h5, h6, _⟩ := hwf
    simp only [serFrame, List.append_assoc, List.cons_append, List.nil_append, parseFrame,
      parseVarint_varint 1 _ (by norm_num), parseVarint_varint dff _ h1,
      readByte, parseVarint_varint ps _ h5, parseBytes_serBytes body rest h6]
    norm_num

/-- `DataFrameV2::pad` (protocol.rs lines 73-86): serialize, append the
hidden-data byte, then pad with `0xff` bytes.  The amount is
`rand::thread_rng().gen_range(0, 10) + (32 - len % 32)` where `len`
counts the hidden byte; the random draw `r < 10` is an explicit
argument. -/
def DataFrameV2.pad (f : DataFrameV2) (hidden_data : ℕ) (r : ℕ) : List ℕ :=
  let base := serFrame f ++ [hidden_data]
  base ++ List.replicate (r + (32 - base.length % 32)) 255

/-- `DataFrameV2::depad` (protocol.rs lines 88-98): deserialize a frame
from the front, then read the byte immediately after it (`0xff` when
absent). -/
def DataFrameV2.depad (bts : List ℕ) : Option (DataFrameV2 × ℕ) :=
  match parseFrame bts with
  | none => none
  | some (f, rest) => some (f, rest.headD 255)

/-- **C5.** For every well-formed `DataFrameV2` value `f` and
hidden-data byte `h`, `depad (pad f h) = some (f, h)` for every random
padding amount `pad` may choose: the hidden byte immediately following
the varint-serialized frame is recovered exactly, and the trailing
random/alignment padding does not affect decoding. -/
theorem claim_C5_pad_depad_roundtrip (f : DataFrameV2) (h r : ℕ)
    (hwf : f.WF) (_hh : h < 256) (_hr : r < 10) :
    DataFrameV2.depad (f.pad h r) = some (f, h) := by
  have hpad : f.pad h r =
      serFrame f ++ ([h] ++ List.replicate
        (r + (32 - (serFrame f ++ [h]).length % 32)) 255) := by
    simp [DataFrameV2.pad, List.append_assoc]
  rw [DataFrameV2.depad, hpad, parseFrame_serFrame f _ hwf]
  simp

/-- Witness for C5 on a concrete Data frame. -/
theorem claim_C5_pad_depad_roundtrip_witness :
    (DataFrameV2.data 1 2 3 [7, 8]).WF ∧ (42:ℕ) < 256 ∧ (4:ℕ) < 10 ∧
    DataFrameV2.depad ((DataFrameV2.data 1 2 3 [7, 8]).pad 42 4) =
      some (DataFrameV2.data 1 2 3 [7, 8], 42) :=
  ⟨by decide, by decide, by decide,
    claim_C5_pad_depad_roundtrip (DataFrameV2.data 1 2 3 [7, 8]) 42 4
      (by decide) (by decide) (by decide)⟩

/-! ## The min-queue (`src/stats.rs`, lines 6-92)

`MinQueue<T: Ord>` is a FIFO queue made of two stacks (`left` for
pushes, `right` for pops) with a cached running minimum on each stack.
The `slab` indirection of the source stores elements once and refers to
them by key; since keys are used only to fetch the element for
comparison, the model stores the elements (and the cached minima)
directly.  Stack tops are list heads. -/

/-- `MinQueue::min_idx_of`: the earlier-pushed candidate wins ties
(`if items[x] < items[y] { x } else { y }`). -/
def minOf {T : Type} [LinearOrder T] (a b : T) : T := if a < b then a else b

/-- A two-stack min-queue; each stack entry is `(element, cached
minimum of the stack from its bottom up to this entry)`. -/
structure MinQueue (T : Type) where
  left : List (T × T)
  right : List (T × T)

/-- `MinQueue::new`. -/
def MinQueue.empty (T : Type) : MinQueue T := ⟨[], []⟩

/-- The queue contents in front-to-back order: the pop stack from top
to bottom, then the push stack from bottom to top. -/
def MinQueue.contents {T : Type} (q : MinQueue T) : List T :=
  q.right.map Prod.fst ++ (q.left.map Prod.fst).reverse

/-- `MinQueue::len` (the slab holds each element exactly once). -/
def MinQueue.len {T : Type} (q : MinQueue T) : ℕ := q.contents.length

/-- The cached minimum to record when pushing `e` on top of a stack:
`minOf` of the previous top's cache and `e` (`e` itself on an empty
stack) — the `self.left.last().map(|i| self.min_idx_of(i.1, elem))
.unwrap_or(elem)` computation. -/
def stackCache {T : Type} [LinearOrder T] (e : T) : List (T × T) → T
  | [] => e
  | (_, pm) :: _ => minOf pm e

/-- `MinQueue::push_back`. -/
def MinQueue.push_back {T : Type} [LinearOrder T] (q : MinQueue T) (x : T) : MinQueue T :=
  ⟨(x, stackCache x q.left) :: q.left, q.right⟩

/-- The `while let Some((elem, _)) = self.left.pop()` loop of
`MinQueue::pop_front`: move every element of the push stack onto the
pop stack, recomputing cached minima. -/
def flushLeft {T : Type} [LinearOrder T] : List (T × T) → List (T × T) → List (T × T)
  | [], right => right
  | (e, _) :: rest, right => flushLeft rest ((e, stackCache e right) :: right)

/-- `MinQueue::pop_front`. -/
def MinQueue.pop_front {T : Type} [LinearOrder T] (q : MinQueue T) :
    Option (T × MinQueue T) :=
  let q' : MinQueue T := if q.right.isEmpty then ⟨[], flushLeft q.left q.right⟩ else q
  match q'.right with
  | [] => none
  | (e, _) :: rest => some (e, ⟨q'.left, rest⟩)

/-- `MinQueue::peek_front`. -/
def MinQueue.peek_front {T : Type} (q : MinQueue T) : Option T :=
  match q.right with
  | [] => (q.left.getLast?).map Prod.fst
  | (e, _) :: _ => some e

/-- `MinQueue::min` via `min_idx`. -/
def MinQueue.minElem {T : Type} [LinearOrder T] (q : MinQueue T) : Option T :=
  match q.left, q.right with
  | [], [] => none
  | (_, lm) :: _, [] => some lm
  | [], (_, rm) :: _ => some rm
  | (_, lm) :: _, (_, rm) :: _ => some (minOf lm rm)

/-- Correctness of one stack's cached minima: each entry's cache is the
`minOf` of its element and the cache below it. -/
def stackWF {T : Type} [LinearOrder T] : List (T × T) → Prop
  | [] => True
  | (e, m) :: rest => m = stackCache e rest ∧ stackWF rest

/-- A min-queue is well-formed when both stacks' caches are correct. -/
def MinQueue.WF {T : Type} [LinearOrder T] (q : MinQueue T) : Prop :=
  stackWF q.left ∧ stackWF q.right

theorem minOf_eq_min {T : Type} [LinearOrder T] (a b : T) : minOf a b = min a b := by
  rw [minOf]
  rcases lt_trichotomy a b with h | h | h
  · rw [if_pos h, min_eq_left h.le]
  · subst h; simp
  · rw [if_neg (not_lt_of_gt h), min_eq_right h.le]

/-- The cache at the top of a well-formed stack is the minimum of the
stack's elements. -/
theorem stackWF_head_min {T : Type} [LinearOrder T] :
    ∀ (e m : T) (rest : List (T × T)), stackWF ((e, m) :: rest) →
      (m ∈ ((e, m) :: rest).map Prod.fst ∧
       ∀ x ∈ ((e, m) :: rest).map Prod.fst, m ≤ x) := by
  intro e m rest
  induction rest generalizing e m with
  | nil =>
    rintro ⟨rfl, -⟩
    simp
  | cons hd tl ih =>
    obtain ⟨e', m'⟩ := hd
    rintro ⟨hm, hwf⟩
    rw [show stackCache e ((e', m') :: tl) = minOf m' e from rfl] at hm
    subst hm
    obtain ⟨hmem, hle⟩ := ih e' m' hwf
    constructor
    · rw [minOf_eq_min]
      rcases le_total m' e with h | h
      · rw [min_eq_left h]
        simp only [List.map_cons, List.mem_cons] at hmem ⊢
        tauto
      · rw [min_eq_right h]
        simp
    · intro x hx
      rw [minOf_eq_min]
      simp only [List.map_cons, List.mem_cons] at hx
      rcases hx with rfl | hx
      · exact min_le_right _ _
      · refine le_trans (min_le_left _ _) (hle x ?_)
        simpa using hx

theorem MinQueue.push_back_contents {T : Type} [LinearOrder T] (q : MinQueue T) (x : T) :
    (q.push_back x).contents = q.contents ++ [x] := by
  simp [MinQueue.push_back, MinQueue.contents]

theorem MinQueue.push_back_WF {T : Type} [LinearOrder T] (q : MinQueue T) (x : T)
    (hwf : q.WF) : (q.push_back x).WF := by
  refine ⟨⟨rfl, hwf.1⟩, hwf.2⟩

theorem flushLeft_map_fst {T : Type} [LinearOrder T] :
    ∀ (l r : List (T × T)),
      (flushLeft l r).map Prod.fst = (l.map Prod.fst).reverse ++ r.map Prod.fst := by
  intro l
  induction l with
  | nil => intro r; simp [flushLeft]
  | cons hd rest ih =>
    intro r
    obtain ⟨e, c⟩ := hd
    show (flushLeft rest ((e, stackCache e r) :: r)).map Prod.fst = _
    rw [ih]
    simp

theorem flushLeft_WF {T : Type} [LinearOrder T] :
    ∀ (l r : List (T × T)), stackWF r → stackWF (flushLeft l r) := by
  intro l
  induction l with
  | nil => intro r h; exact h
  | cons hd rest ih =>
    intro r h
    obtain ⟨e, c⟩ := hd
    show stackWF (flushLeft rest ((e, stackCache e r) :: r))
    exact ih _ ⟨rfl, h⟩

theorem MinQueue.pop_front_none {T : Type} [LinearOrder T] (q : MinQueue T)
    (h : q.contents = []) : q.pop_front = none := by
  obtain ⟨l, r⟩ := q
  simp only [MinQueue.contents, List.append_eq_nil, List.reverse_eq_nil_iff,
    List.map_eq_nil_iff] at h
  obtain ⟨hr, hl⟩ := h
  subst hr hl
  rfl

theorem MinQueue.pop_front_cons {T : Type} [LinearOrder T] (q : MinQueue T) (x : T)
    (xs : List T) (h : q.contents = x :: xs) :
    ∃ q', q.pop_front = some (x, q') ∧ q'.contents = xs ∧ (q.WF → q'.WF) := by
  obtain ⟨l, r⟩ := q
  cases r with
  | nil =>
    -- the pop stack is empty: the push stack is flushed first
    have hflush : (flushLeft l ([] : List (T × T))).map Prod.fst =
        (l.map Prod.fst).reverse := by
      rw [flushLeft_map_fst]
      simp
    simp only [MinQueue.contents, List.map_nil, List.nil_append] at h
    cases hfl : flushLeft l ([] : List (T × T)) with
    | nil =>
      exfalso
      rw [hfl] at hflush
      simp only [List.map_nil] at hflush
      rw [← hflush] at h
      simp at h
    | cons hd tl =>
      obtain ⟨e, c⟩ := hd
      rw [hfl] at hflush
      simp only [List.map_cons] at hflush
      have hx : e :: tl.map Prod.fst = x :: xs := hflush.trans h
      have he : e = x := by injection hx
      have htl : tl.map Prod.fst = xs := by injection hx
      refine ⟨⟨[], tl⟩, ?_, ?_, ?_⟩
      · simp [MinQueue.pop_front, hfl, he]
      · simp [MinQueue.contents, htl]
      · intro _
        have hwfl : stackWF ((e, c) :: tl) := hfl ▸ flushLeft_WF l [] trivial
        exact ⟨trivial, hwfl.2⟩
  | cons hd tl =>
    obtain ⟨e, c⟩ := hd
    simp only [MinQueue.contents, List.map_cons, List.cons_append, List.cons.injEq] at h
    refine ⟨⟨l, tl⟩, ?_, ?_, ?_⟩
    · simp [MinQueue.pop_front, h.1]
    · simp only [MinQueue.contents]
      exact h.2
    · intro hwf
      exact ⟨hwf.1, hwf.2.2⟩

theorem MinQueue.peek_front_eq {T : Type} [LinearOrder T] (q : MinQueue T) :
    q.peek_front = q.contents.head? := by
  obtain ⟨l, r⟩ := q
  cases r with
  | nil =>
    simp only [MinQueue.peek_front, MinQueue.contents, List.map_nil, List.nil_append]
    rw [List.head?_reverse, List.getLast?_map]
  | cons hd tl =>
    obtain ⟨e, c⟩ := hd
    simp [MinQueue.peek_front, MinQueue.contents]

/-- `MinQueue::min` returns the least element of a well-formed queue
(and `none` exactly when the queue is empty). -/
theorem MinQueue.minElem_correct {T : Type} [LinearOrder T] (q : MinQueue T)
    (hwf : q.WF) :
    (q.contents = [] → q.minElem = none) ∧
    ∀ x xs, q.contents = x :: xs →
      ∃ m, q.minElem = some m ∧ m ∈ q.contents ∧ ∀ y ∈ q.contents, m ≤ y := by
  obtain ⟨l, r⟩ := q
  constructor
  · intro h
    simp only [MinQueue.contents, List.append_eq_nil, List.reverse_eq_nil_iff,
      List.map_eq_nil_iff] at h
    obtain ⟨hr, hl⟩ := h
    subst hr hl
    rfl
  · intro x xs h
    have hne : ¬ (l = [] ∧ r = []) := by
      rintro ⟨rfl, rfl⟩
      simp [MinQueue.contents] at h
    clear h
    match l, r with
    | [], [] => exact absurd ⟨rfl, rfl⟩ hne
    | (le', lm) :: lrest, [] =>
      obtain ⟨hl, _⟩ := hwf
      obtain ⟨hmem, hle⟩ := stackWF_head_min le' lm lrest hl
      refine ⟨lm, rfl, ?_, ?_⟩
      · simp only [MinQueue.contents, List.map_nil, List.nil_append, List.mem_reverse]
        exact hmem
      · intro y hy
        simp only [MinQueue.contents, List.map_nil, List.nil_append, List.mem_reverse] at hy
        exact hle y hy
    | [], (re', rm) :: rrest =>
      obtain ⟨_, hr⟩ := hwf
      obtain ⟨hmem, hle⟩ := stackWF_head_min re' rm rrest hr
      refine ⟨rm, rfl, ?_, ?_⟩
      · simp only [MinQueue.contents, List.map_nil, List.reverse_nil, List.append_nil]
        exact hmem
      · intro y hy
        simp only [MinQueue.contents, List.map_nil, List.reverse_nil, List.append_nil] at hy
        exact hle y hy
    | (le', lm) :: lrest, (re', rm) :: rrest =>
      obtain ⟨hl, hr⟩ := hwf
      obtain ⟨hlmem, hlle⟩ := stackWF_head_min le' lm lrest hl
      obtain ⟨hrmem, hrle⟩ := stackWF_head_min re' rm rrest hr
      refine ⟨minOf lm rm, rfl, ?_, ?_⟩
      · rw [minOf_eq_min]
        rcases le_total lm rm with hcase | hcase
        · rw [min_eq_left hcase]
          simp only [MinQueue.contents, List.mem_append, List.mem_reverse]
          right
          exact hlmem
        · rw [min_eq_right hcase]
          simp only [MinQueue.contents, List.mem_append]
          left
          exact hrmem
      · intro y hy
        rw [minOf_eq_min]
        simp only [MinQueue.contents, List.mem_append, List.mem_reverse] at hy
        rcases hy with hy | hy
        · exact le_trans (min_le_right _ _) (hrle y hy)
        · exact le_trans (min_le_left _ _) (hlle y hy)

/-! ## The delivery-rate estimator (`src/mux/relconn/inflight/calc.rs`, lines 59-114)

`BwCalculator` keeps a `MinQueue<Reverse<(OrderedFloat<f64>, Instant)>>`;
the `Reverse` of the lexicographic `(rate, time)` order is modelled as
the order dual of `Lex (ℚ × ℚ)`, so the queue's `min` is the
lexicographically greatest `(rate, time)` sample.  The RTT estimator
(`RttCalculator`, an `f64` EMA with Gaussian quantiles) has no exact
rational embedding; the two values read from it by `Inflight`
(`rtt_var`, `rto`) are explicit parameters of the operations below. -/

/-- `Reverse<(OrderedFloat<f64>, Instant)>`. -/
abbrev SampleT : Type := (Lex (ℚ × ℚ))ᵒᵈ

/-- Build a queue sample from a delivery rate and a timestamp. -/
def mkSample (rate time : ℚ) : SampleT := OrderDual.toDual (toLex (rate, time))

/-- The `f.0 .0 .0` projection: the sample's delivery rate. -/
def sampleRate (s : SampleT) : ℚ := (ofLex (OrderDual.ofDual s)).1

/-- The `f.0 .1` projection: the sample's timestamp. -/
def sampleTime (s : SampleT) : ℚ := (ofLex (OrderDual.ofDual s)).2

/-- `BwCalculator` (calc.rs lines 59-63). -/
structure BwCalculator where
  delivered : ℕ
  delivered_time : ℚ
  delivery_max_filter : MinQueue SampleT

/-- `BwCalculator::default()`; `delivered_time: Instant::now()`. -/
def BwCalculator.init (now : ℚ) : BwCalculator := ⟨0, now, MinQueue.empty _⟩

/-- The pruning loop of `BwCalculator::on_ack`: pop from the front
while the front sample is more than two seconds old.  `Instant::elapsed`
saturates at zero, so the guard `elapsed > 2.0` is `now - time > 2` in
both models.  Each iteration pops one element, so the queue length
bounds the iteration count and serves as fuel. -/
def pruneFilter (now : ℚ) : ℕ → MinQueue SampleT → MinQueue SampleT
  | 0, q => q
  | fuel + 1, q =>
    match q.peek_front with
    | none => q
    | some s =>
      if now - sampleTime s > 2 then
        match q.pop_front with
        | none => q
        | some (_, q') => pruneFilter now fuel q'
      else q

/-- `BwCalculator::on_ack` (calc.rs lines 76-94). -/
def BwCalculator.on_ack (bw : BwCalculator) (now : ℚ) (packet_delivered : ℕ)
    (packet_delivered_time : ℚ) : BwCalculator :=
  let delivered := bw.delivered + 1
  let delivery_rate := ((delivered - packet_delivered : ℕ) : ℚ) / (now - packet_delivered_time)
  let filter := bw.delivery_max_filter.push_back (mkSample delivery_rate now)
  ⟨delivered, now, pruneFilter now filter.len filter⟩

/-- `BwCalculator::delivery_rate`: the rate of the queue `min` (the
lexicographically greatest sample), zero when empty. -/
def BwCalculator.delivery_rate (bw : BwCalculator) : ℚ :=
  (bw.delivery_max_filter.minElem.map sampleRate).getD 0

/-! ## The inflight tracker (`src/mux/relconn/inflight.rs`)

`segments: BTreeMap<Seqno, InflightEntry>` is modelled as an
association list kept in ascending key order by the operations
(`segInsertSorted`); `rtos: BTreeMap<Instant, Vec<Seqno>>` likewise
with rational keys.  `Message` payloads are abstracted to `ℕ`
identifiers (their content is never inspected by `Inflight`). -/

/-- `InflightEntry` (inflight.rs lines 11-24). -/
structure InflightEntry where
  seqno : ℕ
  send_time : ℚ
  retrans : ℕ
  payload : ℕ
  retrans_time : ℚ
  delivered : ℕ
  delivered_time : ℚ
  known_lost : Bool
  deriving DecidableEq

/-- `BTreeMap::get`. -/
def segLookup (k : ℕ) : List (ℕ × InflightEntry) → Option InflightEntry
  | [] => none
  | (k', v) :: rest => if k = k' then some v else segLookup k rest

/-- `BTreeMap::insert` on a key-sorted association list: insert at the
sorted position, returning the previous value if the key was present. -/
def segInsertSorted (k : ℕ) (v : InflightEntry) :
    List (ℕ × InflightEntry) → List (ℕ × InflightEntry) × Option InflightEntry
  | [] => ([(k, v)], none)
  | (k', v') :: rest =>
    if k < k' then ((k, v) :: (k', v') :: rest, none)
    else if k = k' then ((k, v) :: rest, some v')
    else
      let r := segInsertSorted k v rest
      ((k', v') :: r.1, r.2)

/-- `BTreeMap::remove`, returning the removed value if any. -/
def segRemove (k : ℕ) :
    List (ℕ × InflightEntry) → List (ℕ × InflightEntry) × Option InflightEntry
  | [] => ([], none)
  | (k', v') :: rest =>
    if k = k' then (rest, some v')
    else
      let r := segRemove k rest
      ((k', v') :: r.1, r.2)

/-- In-place update of the entry at a key (`get_mut` followed by field
assignments); no-op when the key is absent. -/
def segUpdate (k : ℕ) (f : InflightEntry → InflightEntry) :
    List (ℕ × InflightEntry) → List (ℕ × InflightEntry)
  | [] => []
  | (k', v') :: rest =>
    if k = k' then (k', f v') :: rest else (k', v') :: segUpdate k f rest

/-- `self.rtos.entry(t).or_default().push(s)` on a time-sorted
association list of seqno vectors. -/
def rtoInsertPush (t : ℚ) (s : ℕ) : List (ℚ × List ℕ) → List (ℚ × List ℕ)
  | [] => [(t, [s])]
  | (t', l) :: rest =>
    if t < t' then (t, [s]) :: (t', l) :: rest
    else if t = t' then (t', l ++ [s]) :: rest
    else (t', l) :: rtoInsertPush t s rest

/-- `Inflight::remove_rto` (inflight.rs lines 235-243): drop a seqno
from the vector at a time key, removing the key when the vector empties. -/
def rtoRemove (t : ℚ) (s : ℕ) : List (ℚ × List ℕ) → List (ℚ × List ℕ)
  | [] => []
  | (t', l) :: rest =>
    if t = t' then
      let l' := l.filter (fun v => v ≠ s)
      if l'.isEmpty then rest else (t', l') :: rest
    else (t', l) :: rtoRemove t s rest

/-- `Inflight` (inflight.rs lines 27-35).  The `rtt: RttCalculator`
field (an `f64` EMA, unobservable by the claims) is not carried; the
values `Inflight` reads from it are parameters of the operations. -/
structure Inflight where
  segments : List (ℕ × InflightEntry)
  rtos : List (ℚ × List ℕ)
  lost_count : ℕ
  bw : BwCalculator

/-- `Inflight::new`. -/
def Inflight.new (now : ℚ) : Inflight := ⟨[], [], 0, BwCalculator.init now⟩

/-- `Inflight::unacked`. -/
def Inflight.unacked (fl : Inflight) : ℕ := fl.segments.length

/-- `Inflight::inflight`: `self.segments.len() - self.lost_count`
(`usize` subtraction, here `ℕ` truncated subtraction). -/
def Inflight.inflight (fl : Inflight) : ℕ := fl.segments.length - fl.lost_count

/-- `Inflight::first_rto`: the earliest scheduled retransmission. -/
def Inflight.first_rto (fl : Inflight) : Option (ℕ × ℚ) :=
  match fl.rtos with
  | [] => none
  | (t, l) :: _ => some (l.headD 0, t)

/-- `Inflight::insert` (inflight.rs lines 183-204).  `assert!(prev
.is_none())` panics on a duplicate seqno: modelled as `none`.  `now`
and the RTT estimator's `rto()` are explicit arguments. -/
def Inflight.insert (fl : Inflight) (now rto_dur : ℚ) (seqno : ℕ) (msg : ℕ) :
    Option Inflight :=
  let rto := now + rto_dur
  let entry : InflightEntry :=
    { seqno := seqno, send_time := now, retrans := 0, payload := msg,
      retrans_time := rto, delivered := fl.bw.delivered,
      delivered_time := fl.bw.delivered_time, known_lost := false }
  let r := segInsertSorted seqno entry fl.segments
  match r.2 with
  | some _ => none
  | none => some { fl with segments := r.1, rtos := rtoInsertPush rto seqno fl.rtos }

/-- The `for seqno in mark_as_lost` early-retransmit scan at the end of
`Inflight::mark_acked` (inflight.rs lines 136-159): for each tracked
seqno below the acked one, if it was never retransmitted, its scheduled
retransmission is at least `4 * rtt_var` before the acked segment's,
and that schedule is still in the future, reschedule it to `now`. -/
def earlyRetransLoop (now rtt_var acked_retrans_time : ℚ) :
    List ℕ → Inflight → Inflight
  | [], fl => fl
  | s :: rest, fl =>
    let fl' := match segLookup s fl.segments with
      | none => fl
      | some seg =>
        if seg.retrans = 0 ∧ seg.retrans_time + rtt_var * 4 ≤ acked_retrans_time ∧
            seg.retrans_time > now then
          { fl with
            segments := segUpdate s (fun e => { e with retrans_time := now }) fl.segments,
            rtos := rtoInsertPush now s (rtoRemove seg.retrans_time s fl.rtos) }
        else fl
    earlyRetransLoop now rtt_var acked_retrans_time rest fl'

/-- `Inflight::mark_acked` (inflight.rs lines 119-164).  The RTT
sample recorded when `retrans == 0` goes to the unmodelled `f64` EMA
and is not observable by any claim; the bandwidth estimator is fed
`(acked_seg.delivered, acked_seg.send_time)` exactly as in the source. -/
def Inflight.mark_acked (fl : Inflight) (now rtt_var : ℚ) (acked_seqno : ℕ) :
    Inflight × Bool :=
  match segRemove acked_seqno fl.segments with
  | (segs', some acked_seg) =>
    let bw' := fl.bw.on_ack now acked_seg.delivered acked_seg.send_time
    let fl1 : Inflight :=
      { segments := segs',
        rtos := rtoRemove acked_seg.retrans_time acked_seqno fl.rtos,
        lost_count := if acked_seg.known_lost then fl.lost_count - 1 else fl.lost_count,
        bw := bw' }
    let scan := (fl1.segments.filter (fun kv => kv.1 < acked_seqno)).map Prod.fst
    (earlyRetransLoop now rtt_var acked_seg.retrans_time scan fl1, true)
  | (_, none) => (fl, false)

/-- `Inflight::mark_acked_lt` (inflight.rs lines 101-116): cumulative
ack of every tracked seqno below `seqno`, counting actual removals. -/
def Inflight.mark_acked_lt (fl : Inflight) (now rtt_var : ℚ) (seqno : ℕ) :
    Inflight × ℕ :=
  let to_remove := (fl.segments.map Prod.fst).filter (· < seqno)
  to_remove.foldl
    (fun acc s =>
      let r := acc.1.mark_acked now rtt_var s
      (r.1, acc.2 + if r.2 then 1 else 0))
    (fl, 0)

/-- `Inflight::mark_lost` (inflight.rs lines 167-181). -/
def Inflight.mark_lost (fl : Inflight) (seqno : ℕ) : Inflight × Bool :=
  match segLookup seqno fl.segments with
  | some seg =>
    ({ fl with
        segments := segUpdate seqno (fun e => { e with known_lost := true }) fl.segments,
        rtos := rtoRemove seg.retrans_time seqno fl.rtos,
        lost_count := if seg.known_lost then fl.lost_count else fl.lost_count + 1 },
      true)
  | none => (fl, false)

/-- `Inflight::retransmit` (inflight.rs lines 214-233).  The final
`self.lost_count -= 1` is unconditional: a `usize` decrement, which in
release builds wraps modulo `2 ^ 64` when `lost_count = 0`. -/
def Inflight.retransmit (fl : Inflight) (now rto : ℚ) (seqno : ℕ) :
    Inflight × Option ℕ :=
  match segLookup seqno fl.segments with
  | none => (fl, none)
  | some entry =>
    let new_retrans := now + rto * (2 : ℚ) ^ (entry.retrans + 1)
    ({ fl with
        segments := segUpdate seqno
          (fun e => { e with retrans := e.retrans + 1, retrans_time := new_retrans,
                             known_lost := false }) fl.segments,
        rtos := rtoInsertPush new_retrans seqno
          (rtoRemove entry.retrans_time seqno fl.rtos),
        lost_count := (fl.lost_count + 2 ^ 64 - 1) % 2 ^ 64 },
      some entry.payload)

/-! ### Lemmas about the segment map operations -/

/-- The predicate counting known-lost entries. -/
def lostP (kv : ℕ × InflightEntry) : Bool := kv.2.known_lost

/-- Segment lists are kept in strictly ascending key order (the
`BTreeMap` invariant). -/
def SegsSorted (l : List (ℕ × InflightEntry)) : Prop :=
  List.Pairwise (fun a b => a.1 < b.1) l

theorem segRemove_snd (k : ℕ) : ∀ (l : List (ℕ × InflightEntry)),
    (segRemove k l).2 = segLookup k l := by
  intro l
  induction l with
  | nil => rfl
  | cons hd rest ih =>
    obtain ⟨k', v'⟩ := hd
    by_cases h : k = k' <;> simp [segRemove, segLookup, h, ih]

theorem segRemove_sublist (k : ℕ) : ∀ (l : List (ℕ × InflightEntry)),
    (segRemove k l).1.Sublist l := by
  intro l
  induction l with
  | nil => simp [segRemove]
  | cons hd rest ih =>
    obtain ⟨k', v'⟩ := hd
    by_cases h : k = k'
    · simp [segRemove, h]
    · simp only [segRemove, if_neg h]
      exact ih.cons₂ (k', v')

theorem segRemove_countP (k : ℕ) (p : ℕ × InflightEntry → Bool) :
    ∀ (l : List (ℕ × InflightEntry)) (v : InflightEntry), (segRemove k l).2 = some v →
      l.countP p = (segRemove k l).1.countP p + (if p (k, v) then 1 else 0) := by
  intro l
  induction l with
  | nil => intro v h; simp [segRemove] at h
  | cons hd rest ih =>
    obtain ⟨k', v'⟩ := hd
    intro v h
    by_cases hk : k = k'
    · subst hk
      have hr : segRemove k ((k, v') :: rest) = (rest, some v') := by
        simp [segRemove]
      rw [hr] at h ⊢
      simp only [Option.some.injEq] at h
      subst h
      rw [List.countP_cons]
    · have hr : segRemove k ((k', v') :: rest) =
          ((k', v') :: (segRemove k rest).1, (segRemove k rest).2) := by
        simp [segRemove, hk]
      rw [hr] at h ⊢
      simp only at h
      rw [List.countP_cons, List.countP_cons, ih v h]
      omega

theorem segRemove_length (k : ℕ) : ∀ (l : List (ℕ × InflightEntry))
    (v : InflightEntry), (segRemove k l).2 = some v →
      l.length = (segRemove k l).1.length + 1 := by
  intro l
  induction l with
  | nil => intro v h; simp [segRemove] at h
  | cons hd rest ih =>
    obtain ⟨k', v'⟩ := hd
    intro v h
    by_cases hk : k = k'
    · simp [segRemove, hk]
    · have hr : segRemove k ((k', v') :: rest) =
          ((k', v') :: (segRemove k rest).1, (segRemove k rest).2) := by
        simp [segRemove, hk]
      rw [hr] at h ⊢
      simp only at h
      simp only [List.length_cons]
      rw [ih v h]

theorem segUpdate_keys (k : ℕ) (f : InflightEntry → InflightEntry) :
    ∀ (l : List (ℕ × InflightEntry)),
      (segUpdate k f l).map Prod.fst = l.map Prod.fst := by
  intro l
  induction l with
  | nil => rfl
  | cons hd rest ih =>
    obtain ⟨k', v'⟩ := hd
    by_cases h : k = k' <;> simp [segUpdate, h, ih]

theorem segUpdate_length (k : ℕ) (f : InflightEntry → InflightEntry)
    (l : List (ℕ × InflightEntry)) : (segUpdate k f l).length = l.length := by
  have := congrArg List.length (segUpdate_keys k f l)
  simpa using this

theorem segUpdate_countP (k : ℕ) (f : InflightEntry → InflightEntry)
    (p : ℕ × InflightEntry → Bool) :
    ∀ (l : List (ℕ × InflightEntry)) (v : InflightEntry), segLookup k l = some v →
      (segUpdate k f l).countP p + (if p (k, v) then 1 else 0) =
        l.countP p + (if p (k, f v) then 1 else 0) := by
  intro l
  induction l with
  | nil => intro v h; simp [segLookup] at h
  | cons hd rest ih =>
    obtain ⟨k', v'⟩ := hd
    intro v h
    by_cases hk : k = k'
    · subst hk
      have hl : segLookup k ((k, v') :: rest) = some v' := by simp [segLookup]
      rw [hl] at h
      simp only [Option.some.injEq] at h
      subst h
      have hu : segUpdate k f ((k, v') :: rest) = (k, f v') :: rest := by
        simp [segUpdate]
      rw [hu]
      simp only [List.countP_cons]
      omega
    · have hl : segLookup k ((k', v') :: rest) = segLookup k rest := by
        simp [segLookup, hk]
      rw [hl] at h
      have hu : segUpdate k f ((k', v') :: rest) = (k', v') :: segUpdate k f rest := by
        simp [segUpdate, hk]
      rw [hu]
      simp only [List.countP_cons]
      have := ih v h
      omega

theorem segUpdate_countP_of_pres (k : ℕ) (f : InflightEntry → InflightEntry)
    (p : ℕ × InflightEntry → Bool) (l : List (ℕ × InflightEntry))
    (hpres : ∀ k' v, p (k', f v) = p (k', v)) :
    (segUpdate k f l).countP p = l.countP p := by
  induction l with
  | nil => rfl
  | cons hd rest ih =>
    obtain ⟨k', v'⟩ := hd
    by_cases hk : k = k'
    · simp [segUpdate, hk, List.countP_cons, hpres]
    · simp [segUpdate, hk, List.countP_cons, ih]

theorem segLookup_eq_none (k : ℕ) : ∀ (l : List (ℕ × InflightEntry)),
    segLookup k l = none ↔ k ∉ l.map Prod.fst := by
  intro l
  induction l with
  | nil => simp [segLookup]
  | cons hd rest ih =>
    obtain ⟨k', v'⟩ := hd
    by_cases h : k = k' <;> simp [segLookup, h, ih]

theorem segInsertSorted_perm (k : ℕ) (v : InflightEntry) :
    ∀ (l : List (ℕ × InflightEntry)), (segInsertSorted k v l).2 = none →
      (segInsertSorted k v l).1.Perm ((k, v) :: l) := by
  intro l
  induction l with
  | nil => intro _; simp [segInsertSorted]
  | cons hd rest ih =>
    obtain ⟨k', v'⟩ := hd
    intro h
    by_cases h1 : k < k'
    · simp [segInsertSorted, h1]
    · by_cases h2 : k = k'
      · simp [segInsertSorted, h1, h2] at h
      · simp only [segInsertSorted, if_neg h1, if_neg h2] at h ⊢
        refine ((ih h).cons (k', v')).trans ?_
        exact List.Perm.swap _ _ _

theorem segInsertSorted_snd (k : ℕ) (v : InflightEntry) :
    ∀ (l : List (ℕ × InflightEntry)), SegsSorted l →
      (segInsertSorted k v l).2 = segLookup k l := by
  intro l
  induction l with
  | nil => intro _; rfl
  | cons hd rest ih =>
    obtain ⟨k', v'⟩ := hd
    intro hs
    rw [SegsSorted, List.pairwise_cons] at hs
    by_cases h1 : k < k'
    · have : segLookup k ((k', v') :: rest) = none := by
        rw [segLookup_eq_none]
        intro hmem
        simp only [List.map_cons, List.mem_cons] at hmem
        rcases hmem with rfl | hmem
        · omega
        · rw [List.mem_map] at hmem
          obtain ⟨kv, hkv, hfst⟩ := hmem
          have := hs.1 kv hkv
          omega
      rw [this]
      simp [segInsertSorted, h1]
    · by_cases h2 : k = k'
      · simp [segInsertSorted, segLookup, h1, h2]
      · simp only [segInsertSorted, if_neg h1, if_neg h2, segLookup]
        exact ih hs.2

theorem segInsertSorted_mem (k : ℕ) (v : InflightEntry) :
    ∀ (l : List (ℕ × InflightEntry)), ∀ kv ∈ (segInsertSorted k v l).1,
      kv.1 = k ∨ kv.1 ∈ l.map Prod.fst := by
  intro l
  induction l with
  | nil =>
    intro kv hkv
    simp only [segInsertSorted, List.mem_singleton] at hkv
    subst hkv
    exact Or.inl rfl
  | cons hd rest ih =>
    obtain ⟨k', v'⟩ := hd
    intro kv hkv
    by_cases h1 : k < k'
    · rw [show (segInsertSorted k v ((k', v') :: rest)).1 = (k, v) :: (k', v') :: rest by
        simp [segInsertSorted, h1]] at hkv
      rcases List.mem_cons.1 hkv with rfl | hkv
      · exact Or.inl rfl
      · exact Or.inr (List.mem_map_of_mem Prod.fst hkv)
    · by_cases h2 : k = k'
      · rw [show (segInsertSorted k v ((k', v') :: rest)).1 = (k, v) :: rest by
          simp [segInsertSorted, h1, h2]] at hkv
        rcases List.mem_cons.1 hkv with rfl | hkv
        · exact Or.inl rfl
        · refine Or.inr ?_
          simp only [List.map_cons, List.mem_cons]
          exact Or.inr (List.mem_map_of_mem Prod.fst hkv)
      · rw [show (segInsertSorted k v ((k', v') :: rest)).1 =
            (k', v') :: (segInsertSorted k v rest).1 by
          simp [segInsertSorted, h1, h2]] at hkv
        rcases List.mem_cons.1 hkv with rfl | hkv
        · exact Or.inr (by simp)
        · rcases ih kv hkv with hh | hh
          · exact Or.inl hh
          · refine Or.inr ?_
            simp only [List.map_cons, List.mem_cons]
            exact Or.inr hh

theorem segInsertSorted_sorted (k : ℕ) (v : InflightEntry) :
    ∀ (l : List (ℕ × InflightEntry)), SegsSorted l →
      SegsSorted (segInsertSorted k v l).1 := by
  intro l
  induction l with
  | nil => intro _; simp [segInsertSorted, SegsSorted]
  | cons hd rest ih =>
    obtain ⟨k', v'⟩ := hd
    intro hs
    rw [SegsSorted, List.pairwise_cons] at hs
    by_cases h1 : k < k'
    · rw [SegsSorted]
      simp only [segInsertSorted, if_pos h1]
      rw [List.pairwise_cons]
      constructor
      · intro kv hkv
        simp only [List.mem_cons] at hkv
        rcases hkv with rfl | hkv
        · exact h1
        · have := hs.1 kv hkv
          omega
      · rw [List.pairwise_cons]
        exact hs
    · by_cases h2 : k = k'
      · subst h2
        rw [SegsSorted]
        rw [show (segInsertSorted k v ((k, v') :: rest)).1 = (k, v) :: rest by
          simp [segInsertSorted, h1]]
        rw [List.pairwise_cons]
        exact hs
      · rw [SegsSorted]
        rw [show (segInsertSorted k v ((k', v') :: rest)).1 =
            (k', v') :: (segInsertSorted k v rest).1 by
          simp [segInsertSorted, h1, h2]]
        rw [List.pairwise_cons]
        constructor
        · intro kv hkv
          rcases segInsertSorted_mem k v rest kv hkv with hh | hh
          · omega
          · rw [List.mem_map] at hh
            obtain ⟨kv2, hkv2, hfst⟩ := hh
            have := hs.1 kv2 hkv2
            omega
        · exact ih hs.2

theorem segUpdate_sorted (k : ℕ) (f : InflightEntry → InflightEntry) :
    ∀ (l : List (ℕ × InflightEntry)), SegsSorted l → SegsSorted (segUpdate k f l) := by
  intro l
  induction l with
  | nil => intro h; exact h
  | cons hd rest ih =>
    obtain ⟨k', v'⟩ := hd
    intro hs
    rw [SegsSorted, List.pairwise_cons] at hs
    by_cases hk : k = k'
    · rw [show segUpdate k f ((k', v') :: rest) = (k', f v') :: rest by
        simp [segUpdate, hk]]
      rw [SegsSorted, List.pairwise_cons]
      exact hs
    · rw [show segUpdate k f ((k', v') :: rest) = (k', v') :: segUpdate k f rest by
        simp [segUpdate, hk]]
      rw [SegsSorted, List.pairwise_cons]
      constructor
      · intro kv hkv
        have hmem : kv.1 ∈ (segUpdate k f rest).map Prod.fst :=
          List.mem_map_of_mem Prod.fst hkv
        rw [segUpdate_keys] at hmem
        rw [List.mem_map] at hmem
        obtain ⟨kv2, hkv2, hfst⟩ := hmem
        have := hs.1 kv2 hkv2
        omega
      · exact ih hs.2

theorem segLookup_countP_pos (k : ℕ) (p : ℕ × InflightEntry → Bool) :
    ∀ (l : List (ℕ × InflightEntry)) (v : InflightEntry),
      segLookup k l = some v → p (k, v) = true → 1 ≤ l.countP p := by
  intro l
  induction l with
  | nil => intro v h; simp [segLookup] at h
  | cons hd rest ih =>
    obtain ⟨k', v'⟩ := hd
    intro v h hp
    by_cases hk : k = k'
    · subst hk
      rw [show segLookup k ((k, v') :: rest) = some v' by simp [segLookup]] at h
      simp only [Option.some.injEq] at h
      subst h
      rw [List.countP_cons, if_pos hp]
      omega
    · rw [show segLookup k ((k', v') :: rest) = segLookup k rest by
        simp [segLookup, hk]] at h
      rw [List.countP_cons]
      have := ih v h hp
      omega

theorem sorted_keys_nodup (l : List (ℕ × InflightEntry)) (hs : SegsSorted l) :
    (l.map Prod.fst).Nodup := by
  rw [SegsSorted] at hs
  have : (l.map Prod.fst).Pairwise (· < ·) := (List.pairwise_map).2 hs
  exact this.imp ne_of_lt

theorem keys_length_le (l : List (ℕ × InflightEntry)) (N : ℕ)
    (hs : SegsSorted l) (hb : ∀ x ∈ l.map Prod.fst, x < N) : l.length ≤ N := by
  classical
  have hnd := sorted_keys_nodup l hs
  have hsub : (l.map Prod.fst).toFinset ⊆ Finset.range N := by
    intro x hx
    exact Finset.mem_range.2 (hb x (List.mem_toFinset.1 hx))
  have := Finset.card_le_card hsub
  rw [List.toFinset_card_of_nodup hnd, Finset.card_range] at this
  simpa using this

/-- The early-retransmit scan only reschedules RTOs: it leaves the
lost count, bandwidth state, key list, lost flags and ordering intact. -/
theorem earlyRetransLoop_pres (now rv art : ℚ) : ∀ (ss : List ℕ) (fl : Inflight),
    (earlyRetransLoop now rv art ss fl).lost_count = fl.lost_count ∧
    (earlyRetransLoop now rv art ss fl).bw = fl.bw ∧
    (earlyRetransLoop now rv art ss fl).segments.map Prod.fst = fl.segments.map Prod.fst ∧
    (earlyRetransLoop now rv art ss fl).segments.countP lostP = fl.segments.countP lostP ∧
    (SegsSorted fl.segments → SegsSorted (earlyRetransLoop now rv art ss fl).segments) := by
  intro ss
  induction ss with
  | nil => intro fl; exact ⟨rfl, rfl, rfl, rfl, fun h => h⟩
  | cons s rest ih =>
    intro fl
    rw [show earlyRetransLoop now rv art (s :: rest) fl =
        earlyRetransLoop now rv art rest
          (match segLookup s fl.segments with
            | none => fl
            | some seg =>
              if seg.retrans = 0 ∧ seg.retrans_time + rv * 4 ≤ art ∧ seg.retrans_time > now then
                { fl with
                  segments := segUpdate s (fun e => { e with retrans_time := now }) fl.segments,
                  rtos := rtoInsertPush now s (rtoRemove seg.retrans_time s fl.rtos) }
              else fl) from rfl]
    cases hlk : segLookup s fl.segments with
    | none => simpa [hlk] using ih fl
    | some seg =>
      by_cases hc : seg.retrans = 0 ∧ seg.retrans_time + rv * 4 ≤ art ∧ seg.retrans_time > now
      · have := ih { fl with
          segments := segUpdate s (fun e => { e with retrans_time := now }) fl.segments,
          rtos := rtoInsertPush now s (rtoRemove seg.retrans_time s fl.rtos) }
        simp only [hlk, if_pos hc]
        obtain ⟨hl, hb, hk, hc', hsrt⟩ := this
        refine ⟨hl, hb, ?_, ?_, ?_⟩
        · rw [hk]
          exact segUpdate_keys s _ fl.segments
        · rw [hc']
          exact segUpdate_countP_of_pres s _ lostP fl.segments (fun _ _ => rfl)
        · intro hsorted
          exact hsrt (segUpdate_sorted s _ fl.segments hsorted)
      · simp only [hlk, if_neg hc]
        exact ih fl

/-- What `mark_acked` does when the seqno is tracked: removes the
entry, feeds `(delivered, send_time)` to the bandwidth estimator,
decrements the lost count iff the entry was lost, and only reschedules
RTOs otherwise. -/
theorem markAcked_effects (fl : Inflight) (now rv : ℚ) (q : ℕ) (e : InflightEntry)
    (hlk : segLookup q fl.segments = some e) :
    (fl.mark_acked now rv q).2 = true ∧
    (fl.mark_acked now rv q).1.lost_count =
      (if e.known_lost then fl.lost_count - 1 else fl.lost_count) ∧
    (fl.mark_acked now rv q).1.segments.countP lostP +
      (if e.known_lost then 1 else 0) = fl.segments.countP lostP ∧
    (fl.mark_acked now rv q).1.segments.length + 1 = fl.segments.length ∧
    (fl.mark_acked now rv q).1.bw = fl.bw.on_ack now e.delivered e.send_time ∧
    (∀ x ∈ (fl.mark_acked now rv q).1.segments.map Prod.fst,
      x ∈ fl.segments.map Prod.fst) ∧
    (SegsSorted fl.segments → SegsSorted (fl.mark_acked now rv q).1.segments) := by
  have hrm : (segRemove q fl.segments).2 = some e := by
    rw [segRemove_snd]; exact hlk
  have hstep : fl.mark_acked now rv q =
      (earlyRetransLoop now rv e.retrans_time
        ((((segRemove q fl.segments).1).filter (fun kv => kv.1 < q)).map Prod.fst)
        { segments := (segRemove q fl.segments).1,
          rtos := rtoRemove e.retrans_time q fl.rtos,
          lost_count := if e.known_lost then fl.lost_count - 1 else fl.lost_count,
          bw := fl.bw.on_ack now e.delivered e.send_time }, true) := by
    rw [Inflight.mark_acked]
    rcases hpair : segRemove q fl.segments with ⟨segs', removed⟩
    rw [hpair] at hrm
    simp only at hrm
    subst hrm
    simp only
  obtain ⟨hl, hb, hk, hcp, hsrt⟩ := earlyRetransLoop_pres now rv e.retrans_time
    ((((segRemove q fl.segments).1).filter (fun kv => kv.1 < q)).map Prod.fst)
    { segments := (segRemove q fl.segments).1,
      rtos := rtoRemove e.retrans_time q fl.rtos,
      lost_count := if e.known_lost then fl.lost_count - 1 else fl.lost_count,
      bw := fl.bw.on_ack now e.delivered e.send_time }
  rw [hstep]
  simp only at hl hb hk hcp hsrt ⊢
  refine ⟨trivial, hl, ?_, ?_, hb, ?_, ?_⟩
  · rw [hcp]
    have hre := segRemove_countP q lostP fl.segments e hrm
    by_cases hke : e.known_lost = true
    · rw [if_pos (show lostP (q, e) = true from hke)] at hre
      rw [if_pos hke]
      omega
    · rw [if_neg (show ¬ lostP (q, e) = true from hke)] at hre
      rw [if_neg hke]
      omega
  · have hlen := congrArg List.length hk
    rw [List.length_map, List.length_map] at hlen
    rw [hlen]
    have := segRemove_length q fl.segments e hrm
    omega
  · intro x hx
    rw [hk] at hx
    have hsub := (segRemove_sublist q fl.segments).map Prod.fst
    exact hsub.mem hx
  · intro hsorted
    apply hsrt
    exact List.Pairwise.sublist (segRemove_sublist q fl.segments) hsorted

/-- `mark_acked` on an untracked seqno does nothing. -/
theorem markAcked_untracked (fl : Inflight) (now rv : ℚ) (q : ℕ)
    (hlk : segLookup q fl.segments = none) :
    fl.mark_acked now rv q = (fl, false) := by
  have hrm : (segRemove q fl.segments).2 = none := by
    rw [segRemove_snd]; exact hlk
  rw [Inflight.mark_acked]
  rcases hpair : segRemove q fl.segments with ⟨segs', removed⟩
  rw [hpair] at hrm
  simp only at hrm
  subst hrm
  simp only

/-! ### Reachable inflight states and their invariants -/

/-- Keys survive and order is kept from `fl` to `fl'`. -/
def SegPres (fl fl' : Inflight) : Prop :=
  (∀ x ∈ fl'.segments.map Prod.fst, x ∈ fl.segments.map Prod.fst) ∧
  (SegsSorted fl.segments → SegsSorted fl'.segments)

theorem SegPres.refl (fl : Inflight) : SegPres fl fl := ⟨fun _ h => h, fun h => h⟩

theorem SegPres.trans {a b c : Inflight} (h1 : SegPres a b) (h2 : SegPres b c) :
    SegPres a c := by
  refine ⟨fun x hx => h1.1 x (h2.1 x hx), fun hs => ?_⟩
  exact h2.2 (h1.2 hs)

theorem markAcked_pres (fl : Inflight) (now rv : ℚ) (q : ℕ) :
    SegPres fl (fl.mark_acked now rv q).1 := by
  cases hlk : segLookup q fl.segments with
  | none => rw [markAcked_untracked fl now rv q hlk]; exact SegPres.refl fl
  | some e =>
    obtain ⟨-, -, -, -, -, hkeys, hsort⟩ := markAcked_effects fl now rv q e hlk
    exact ⟨hkeys, hsort⟩

theorem markLost_pres (fl : Inflight) (q : ℕ) : SegPres fl (fl.mark_lost q).1 := by
  rw [Inflight.mark_lost]
  cases hlk : segLookup q fl.segments with
  | none => exact SegPres.refl fl
  | some e =>
    simp only
    constructor
    · intro x hx
      rwa [segUpdate_keys] at hx
    · intro hs
      exact segUpdate_sorted _ _ _ hs

theorem retransmit_pres (fl : Inflight) (now rto : ℚ) (q : ℕ) :
    SegPres fl (fl.retransmit now rto q).1 := by
  rw [Inflight.retransmit]
  cases hlk : segLookup q fl.segments with
  | none => exact SegPres.refl fl
  | some e =>
    simp only
    constructor
    · intro x hx
      rwa [segUpdate_keys] at hx
    · intro hs
      exact segUpdate_sorted _ _ _ hs

theorem foldl_markAcked_pres (now rv : ℚ) : ∀ (ss : List ℕ) (fl : Inflight) (n : ℕ),
    SegPres fl
      (ss.foldl
        (fun acc s =>
          let r := acc.1.mark_acked now rv s
          (r.1, acc.2 + if r.2 then 1 else 0))
        (fl, n)).1 := by
  intro ss
  induction ss with
  | nil => intro fl n; exact SegPres.refl fl
  | cons s rest ih =>
    intro fl n
    rw [List.foldl_cons]
    exact (markAcked_pres fl now rv s).trans (ih _ _)

theorem markAckedLt_pres (fl : Inflight) (now rv : ℚ) (q : ℕ) :
    SegPres fl (fl.mark_acked_lt now rv q).1 := by
  rw [Inflight.mark_acked_lt]
  exact foldl_markAcked_pres now rv _ fl 0

/-- The inflight well-formedness invariant: segments sorted by seqno,
seqnos in `u64` range, and the cached lost count correct. -/
def InflightWF (fl : Inflight) : Prop :=
  SegsSorted fl.segments ∧
  (∀ x ∈ fl.segments.map Prod.fst, x < 2 ^ 64) ∧
  fl.lost_count = fl.segments.countP lostP

theorem insert_WF (fl fl' : Inflight) (now rto : ℚ) (seqno msg : ℕ)
    (hseq : seqno < 2 ^ 64) (h : fl.insert now rto seqno msg = some fl')
    (hwf : InflightWF fl) : InflightWF fl' := by
  simp only [Inflight.insert] at h
  rcases hm : (segInsertSorted seqno
      { seqno := seqno, send_time := now, retrans := 0, payload := msg,
        retrans_time := now + rto, delivered := fl.bw.delivered,
        delivered_time := fl.bw.delivered_time, known_lost := false } fl.segments).2 with _ | w
  · rw [hm] at h
    simp only [Option.some.injEq] at h
    subst h
    obtain ⟨hs, hb, hc⟩ := hwf
    refine ⟨segInsertSorted_sorted _ _ _ hs, ?_, ?_⟩
    · intro x hx
      rw [List.mem_map] at hx
      obtain ⟨kv, hkv, hfst⟩ := hx
      rcases segInsertSorted_mem _ _ _ kv hkv with hh | hh
      · omega
      · exact hb x (hfst ▸ hh)
    · have hperm := segInsertSorted_perm _ _ fl.segments hm
      simp only
      rw [hperm.countP_eq lostP, List.countP_cons]
      simpa using hc
  · rw [hm] at h
    simp at h

theorem markAcked_WF (fl : Inflight) (now rv : ℚ) (q : ℕ) (hwf : InflightWF fl) :
    InflightWF (fl.mark_acked now rv q).1 := by
  cases hlk : segLookup q fl.segments with
  | none => rw [markAcked_untracked fl now rv q hlk]; exact hwf
  | some e =>
    obtain ⟨-, hl, hcp, -, -, hkeys, hsort⟩ := markAcked_effects fl now rv q e hlk
    obtain ⟨hs, hb, hc⟩ := hwf
    refine ⟨hsort hs, fun x hx => hb x (hkeys x hx), ?_⟩
    rw [hl]
    by_cases hke : e.known_lost = true
    · rw [if_pos hke]
      rw [if_pos hke] at hcp
      omega
    · rw [if_neg hke]
      rw [if_neg hke] at hcp
      omega

theorem foldl_markAcked_WF (now rv : ℚ) : ∀ (ss : List ℕ) (fl : Inflight) (n : ℕ),
    InflightWF fl →
    InflightWF
      (ss.foldl
        (fun acc s =>
          let r := acc.1.mark_acked now rv s
          (r.1, acc.2 + if r.2 then 1 else 0))
        (fl, n)).1 := by
  intro ss
  induction ss with
  | nil => intro fl n h; exact h
  | cons s rest ih =>
    intro fl n h
    rw [List.foldl_cons]
    exact ih _ _ (markAcked_WF fl now rv s h)

theorem markAckedLt_WF (fl : Inflight) (now rv : ℚ) (q : ℕ) (hwf : InflightWF fl) :
    InflightWF (fl.mark_acked_lt now rv q).1 := by
  rw [Inflight.mark_acked_lt]
  exact foldl_markAcked_WF now rv _ fl 0 hwf

theorem markLost_WF (fl : Inflight) (q : ℕ) (hwf : InflightWF fl) :
    InflightWF (fl.mark_lost q).1 := by
  obtain ⟨hs, hb, hc⟩ := hwf
  rw [Inflight.mark_lost]
  cases hlk : segLookup q fl.segments with
  | none => exact ⟨hs, hb, hc⟩
  | some e =>
    simp only
    refine ⟨segUpdate_sorted _ _ _ hs, ?_, ?_⟩
    · intro x hx
      rw [segUpdate_keys] at hx
      exact hb x hx
    · dsimp only
      have := segUpdate_countP q (fun e => { e with known_lost := true }) lostP
        fl.segments e hlk
      by_cases hke : e.known_lost = true
    <;> [rw [if_pos hke]; rw [if_neg hke]]
    <;> [rw [if_pos (show lostP (q, e) = true from hke),
          if_pos (show lostP (q, { e with known_lost := true }) = true from rfl)] at this;
        rw [if_neg (show ¬ lostP (q, e) = true from hke),
          if_pos (show lostP (q, { e with known_lost := true }) = true from rfl)] at this]
    <;> omega

theorem retransmit_WF (fl : Inflight) (now rto : ℚ) (q : ℕ) (e : InflightEntry)
    (hq : segLookup q fl.segments = some e) (hlost : e.known_lost = true)
    (hwf : InflightWF fl) : InflightWF (fl.retransmit now rto q).1 := by
  obtain ⟨hs, hb, hc⟩ := hwf
  rw [Inflight.retransmit, hq]
  simp only
  refine ⟨segUpdate_sorted _ _ _ hs, ?_, ?_⟩
  · intro x hx
    rw [segUpdate_keys] at hx
    exact hb x hx
  · dsimp only
    have hcnt := segUpdate_countP q
      (fun e2 => { e2 with retrans := e2.retrans + 1,
                           retrans_time := now + rto * (2 : ℚ) ^ (e.retrans + 1),
                           known_lost := false })
      lostP fl.segments e hq
    rw [if_pos (show lostP (q, e) = true from hlost)] at hcnt
    rw [if_neg (show ¬ lostP (q, { e with retrans := e.retrans + 1,
                                          retrans_time := now + rto * (2 : ℚ) ^ (e.retrans + 1),
                                          known_lost := false }) = true
      from by simp [lostP])] at hcnt
    have hpos : 1 ≤ fl.segments.countP lostP :=
      segLookup_countP_pos q lostP fl.segments e hq hlost
    have hle : fl.segments.countP lostP ≤ fl.segments.length :=
      List.countP_le_length lostP
    have hlen : fl.segments.length ≤ 2 ^ 64 := keys_length_le fl.segments (2 ^ 64) hs hb
    have h64 : (2 : ℕ) ^ 64 = 18446744073709551616 := by norm_num
    rw [h64] at hlen ⊢
    omega

/-- The inflight states reachable through the operation sequences the
stream actor performs: `retransmit` is only invoked on seqnos currently
marked lost (the actor draws them from its `lost_seqnos` set), and
seqnos are `u64` values. -/
inductive InflightReach : Inflight → Prop where
  | init (now : ℚ) : InflightReach (Inflight.new now)
  | insert {fl fl' : Inflight} (now rto : ℚ) (seqno msg : ℕ)
      (hseq : seqno < 2 ^ 64) (h : fl.insert now rto seqno msg = some fl') :
      InflightReach fl → InflightReach fl'
  | mark_acked {fl : Inflight} (now rv : ℚ) (q : ℕ) :
      InflightReach fl → InflightReach (fl.mark_acked now rv q).1
  | mark_acked_lt {fl : Inflight} (now rv : ℚ) (q : ℕ) :
      InflightReach fl → InflightReach (fl.mark_acked_lt now rv q).1
  | mark_lost {fl : Inflight} (q : ℕ) :
      InflightReach fl → InflightReach (fl.mark_lost q).1
  | retransmit {fl : Inflight} (now rto : ℚ) (q : ℕ) (e : InflightEntry)
      (hq : segLookup q fl.segments = some e) (hlost : e.known_lost = true) :
      InflightReach fl → InflightReach (fl.retransmit now rto q).1

theorem InflightReach_WF {fl : Inflight} (h : InflightReach fl) : InflightWF fl := by
  induction h with
  | init now => exact ⟨List.Pairwise.nil, by simp [Inflight.new], by simp [Inflight.new]⟩
  | insert now rto seqno msg hseq hins _ ih => exact insert_WF _ _ now rto seqno msg hseq hins ih
  | mark_acked now rv q _ ih => exact markAcked_WF _ now rv q ih
  | mark_acked_lt now rv q _ ih => exact markAckedLt_WF _ now rv q ih
  | mark_lost q _ ih => exact markLost_WF _ q ih
  | retransmit now rto q e hq hlost _ ih => exact retransmit_WF _ now rto q e hq hlost ih

/-- **C3, counterexample.** Under *arbitrary* operation sequences the
invariant fails: `retransmit` decrements `lost_count` unconditionally,
so inserting a (never-lost) packet and then retransmitting it wraps the
`usize` count to `2 ^ 64 - 1`, which no longer equals the number of
known-lost entries (zero). -/
theorem claim_C3_counterexample :
    ((((Inflight.new 0).insert 0 1 5 99).getD (Inflight.new 0)).retransmit 0 1 5).1.lost_count =
      2 ^ 64 - 1 ∧
    (((((Inflight.new 0).insert 0 1 5 99).getD (Inflight.new 0)).retransmit 0 1
        5).1.segments.countP lostP) = 0 ∧
    ((((Inflight.new 0).insert 0 1 5 99).getD (Inflight.new 0)).retransmit 0 1
        5).1.lost_count ≠
      ((((Inflight.new 0).insert 0 1 5 99).getD (Inflight.new 0)).retransmit 0 1
        5).1.segments.countP lostP := by
  refine ⟨by decide, by decide, by decide⟩

/-- **C3 (amended).** For every `Inflight` state reachable by a
sequence of `insert`, `mark_acked`, `mark_acked_lt`, `mark_lost` and
`retransmit` operations *in which `retransmit` is only applied to
seqnos currently marked lost* (the discipline the stream actor
maintains through its `lost_seqnos` set), `lost_count` equals the
number of tracked entries whose `known_lost` flag is true, and
`inflight()` equals `unacked()` minus `lost_count`.  Without that
restriction the source's unconditional `lost_count -= 1` in
`retransmit` underflows. -/
theorem claim_C3_lost_count_invariant (fl : Inflight) (h : InflightReach fl) :
    fl.lost_count = fl.segments.countP lostP ∧
    fl.inflight + fl.lost_count = fl.unacked := by
  obtain ⟨hs, hb, hc⟩ := InflightReach_WF h
  refine ⟨hc, ?_⟩
  have : fl.segments.countP lostP ≤ fl.segments.length := List.countP_le_length lostP
  rw [Inflight.inflight, Inflight.unacked]
  omega

/-- Witness for C3 at the freshly created inflight tracker. -/
theorem claim_C3_lost_count_invariant_witness :
    (Inflight.new 0).lost_count = (Inflight.new 0).segments.countP lostP ∧
    (Inflight.new 0).inflight + (Inflight.new 0).lost_count = (Inflight.new 0).unacked :=
  claim_C3_lost_count_invariant (Inflight.new 0) (InflightReach.init 0)

/-! ### The stream actor's seqno discipline (`src/mux/relconn/connvars.rs`)

`ConnVars` assigns every new data segment the value of its
`next_free_seqno` counter and then increments it (the `NewWrite` arm,
connvars.rs lines 204-222); only those seqnos are ever inserted into
the inflight tracker. -/

/-- The slice of `ConnVars` state relevant to seqno assignment. -/
structure ConnVarsW where
  next_free_seqno : ℕ
  inflight : Inflight

/-- States of the stream actor's write path: a fresh connection, a
`NewWrite` event (insert at `next_free_seqno`, then increment), and the
other inflight operations (which never add tracked seqnos). -/
inductive CVReach : ConnVarsW → Prop where
  | init (now : ℚ) : CVReach ⟨0, Inflight.new now⟩
  | newWrite {s : ConnVarsW} {fl' : Inflight} (now rto : ℚ) (msg : ℕ)
      (h : s.inflight.insert now rto s.next_free_seqno msg = some fl') :
      CVReach s → CVReach ⟨s.next_free_seqno + 1, fl'⟩
  | mark_acked {s : ConnVarsW} (now rv : ℚ) (q : ℕ) :
      CVReach s → CVReach ⟨s.next_free_seqno, (s.inflight.mark_acked now rv q).1⟩
  | mark_acked_lt {s : ConnVarsW} (now rv : ℚ) (q : ℕ) :
      CVReach s → CVReach ⟨s.next_free_seqno, (s.inflight.mark_acked_lt now rv q).1⟩
  | mark_lost {s : ConnVarsW} (q : ℕ) :
      CVReach s → CVReach ⟨s.next_free_seqno, (s.inflight.mark_lost q).1⟩
  | retransmit {s : ConnVarsW} (now rto : ℚ) (q : ℕ) :
      CVReach s → CVReach ⟨s.next_free_seqno, (s.inflight.retransmit now rto q).1⟩

/-- The write-path invariant: segments sorted, and every tracked seqno
below the strictly increasing `next_free_seqno` counter. -/
def CVInv (s : ConnVarsW) : Prop :=
  SegsSorted s.inflight.segments ∧
  ∀ x ∈ s.inflight.segments.map Prod.fst, x < s.next_free_seqno

theorem CVReach_inv {s : ConnVarsW} (h : CVReach s) : CVInv s := by
  induction h with
  | init now => exact ⟨List.Pairwise.nil, by simp [Inflight.new]⟩
  | @newWrite s fl' now rto msg hins _ ih =>
    obtain ⟨hs, hb⟩ := ih
    simp only [Inflight.insert] at hins
    rcases hm : (segInsertSorted s.next_free_seqno
        { seqno := s.next_free_seqno, send_time := now, retrans := 0, payload := msg,
          retrans_time := now + rto, delivered := s.inflight.bw.delivered,
          delivered_time := s.inflight.bw.delivered_time, known_lost := false }
        s.inflight.segments).2 with _ | w
    · rw [hm] at hins
      simp only [Option.some.injEq] at hins
      subst hins
      refine ⟨segInsertSorted_sorted _ _ _ hs, ?_⟩
      intro x hx
      dsimp only at hx ⊢
      rw [List.mem_map] at hx
      obtain ⟨kv, hkv, hfst⟩ := hx
      rcases segInsertSorted_mem _ _ _ kv hkv with hh | hh
      · omega
      · have := hb kv.1 hh
        omega
    · rw [hm] at hins
      simp at hins
  | mark_acked now rv q _ ih =>
    obtain ⟨hs, hb⟩ := ih
    obtain ⟨hkeys, hsort⟩ := markAcked_pres _ now rv q
    exact ⟨hsort hs, fun x hx => hb x (hkeys x hx)⟩
  | mark_acked_lt now rv q _ ih =>
    obtain ⟨hs, hb⟩ := ih
    obtain ⟨hkeys, hsort⟩ := markAckedLt_pres _ now rv q
    exact ⟨hsort hs, fun x hx => hb x (hkeys x hx)⟩
  | mark_lost q _ ih =>
    obtain ⟨hs, hb⟩ := ih
    obtain ⟨hkeys, hsort⟩ := markLost_pres _ q
    exact ⟨hsort hs, fun x hx => hb x (hkeys x hx)⟩
  | retransmit now rto q _ ih =>
    obtain ⟨hs, hb⟩ := ih
    obtain ⟨hkeys, hsort⟩ := retransmit_pres _ now rto q
    exact ⟨hsort hs, fun x hx => hb x (hkeys x hx)⟩

/-- **C10.** `Inflight::insert` has the unstated precondition that the
seqno is not already tracked: its `assert!(prev.is_none())` panics
(modelled as `none`) on a duplicate seqno; and the stream actor upholds
it, because every new data segment takes a fresh seqno from the
strictly increasing `next_free_seqno` counter, so in every reachable
actor state the insert at `next_free_seqno` succeeds. -/
theorem claim_C10_insert_fresh_seqno (s : ConnVarsW) (h : CVReach s) :
    (∀ (seqno : ℕ) (e : InflightEntry) (now rto : ℚ) (msg : ℕ),
      segLookup seqno s.inflight.segments = some e →
      s.inflight.insert now rto seqno msg = none) ∧
    ∀ (now rto : ℚ) (msg : ℕ),
      (s.inflight.insert now rto s.next_free_seqno msg).isSome := by
  obtain ⟨hs, hb⟩ := CVReach_inv h
  constructor
  · intro seqno e now rto msg hlk
    simp only [Inflight.insert]
    rw [segInsertSorted_snd _ _ _ hs, hlk]
  · intro now rto msg
    have hnone : segLookup s.next_free_seqno s.inflight.segments = none := by
      rw [segLookup_eq_none]
      intro hmem
      exact absurd (hb _ hmem) (lt_irrefl _)
    simp only [Inflight.insert]
    rw [segInsertSorted_snd _ _ _ hs, hnone]
    rfl

/-- Witness for C10 at the initial actor state. -/
theorem claim_C10_insert_fresh_seqno_witness :
    ((Inflight.new 0).insert 0 1 0 42).isSome :=
  (claim_C10_insert_fresh_seqno ⟨0, Inflight.new 0⟩ (CVReach.init 0)).2 0 1 42

/-- The pruning loop with sufficient fuel drops exactly the leading
too-old samples, and keeps the queue well-formed. -/
theorem pruneFilter_spec (now : ℚ) : ∀ (fuel : ℕ) (q : MinQueue SampleT), q.WF →
    q.contents.length ≤ fuel →
    (pruneFilter now fuel q).contents =
      q.contents.dropWhile (fun s => decide (now - sampleTime s > 2)) ∧
    (pruneFilter now fuel q).WF := by
  intro fuel
  induction fuel with
  | zero =>
    intro q hwf hlen
    have hc : q.contents = [] := List.eq_nil_of_length_eq_zero (Nat.le_zero.1 hlen)
    refine ⟨?_, hwf⟩
    rw [show pruneFilter now 0 q = q from rfl, hc]
    rfl
  | succ n ih =>
    intro q hwf hlen
    rw [pruneFilter]
    cases hc : q.contents with
    | nil =>
      constructor
      · simp [MinQueue.peek_front_eq, hc]
      · simp only [MinQueue.peek_front_eq, hc, List.head?_nil]
        exact hwf
    | cons x xs =>
      rw [MinQueue.peek_front_eq, hc]
      simp only [List.head?_cons]
      by_cases hcond : now - sampleTime x > 2
      · rw [if_pos hcond]
        obtain ⟨q', hpop, hq'c, hq'wf⟩ := MinQueue.pop_front_cons q x xs hc
        rw [hpop]
        have hlen' : q'.contents.length ≤ n := by
          have hl2 : q.contents.length ≤ n + 1 := hlen
          rw [hc] at hl2
          simp only [List.length_cons] at hl2
          rw [hq'c]
          omega
        obtain ⟨hrec, hrwf⟩ := ih q' (hq'wf hwf) hlen'
        refine ⟨?_, hrwf⟩
        rw [hrec, hq'c]
        simp [List.dropWhile_cons, hcond]
      · rw [if_neg hcond]
        refine ⟨?_, hwf⟩
        rw [hc, List.dropWhile_cons]
        rw [if_neg (by simp only [decide_eq_true_eq]; exact hcond)]

/-- In the reversed lexicographic sample order, smaller elements carry
larger rates: the queue minimum realizes the maximum delivery rate. -/
theorem sampleRate_le_of_le (m y : SampleT) (h : m ≤ y) :
    sampleRate y ≤ sampleRate m := by
  have h2 : toLex (ofLex (OrderDual.ofDual y)) ≤ toLex (ofLex (OrderDual.ofDual m)) := h
  show (ofLex (OrderDual.ofDual y)).1 ≤ (ofLex (OrderDual.ofDual m)).1
  rcases (Prod.Lex.le_iff (ofLex (OrderDual.ofDual y)) (ofLex (OrderDual.ofDual m))).1 h2
    with hlt | ⟨heq, -⟩
  · exact le_of_lt hlt
  · exact le_of_eq heq

theorem sampleRate_mkSample (r t : ℚ) : sampleRate (mkSample r t) = r := rfl

theorem sampleTime_mkSample (r t : ℚ) : sampleTime (mkSample r t) = t := rfl

/-- Modelled from the spec (§4.4): the delivery-rate samples an ACK is
supposed to record — one sample `(delivered_now − packet.delivered) /
(time_now − packet.delivered_time)` when the packet was never
retransmitted, and none otherwise.  Used only to compare against the
code's behaviour. -/
def specAckSamples (retrans delivered_now packet_delivered : ℕ)
    (time_now packet_delivered_time : ℚ) : List ℚ :=
  if retrans = 0 then
    [((delivered_now - packet_delivered : ℕ) : ℚ) / (time_now - packet_delivered_time)]
  else []

/-- A retransmitted inflight entry whose `send_time` (5) differs from
its `delivered_time` stamp (0). -/
def c4Entry : InflightEntry :=
  { seqno := 1, send_time := 5, retrans := 1, payload := 0, retrans_time := 100,
    delivered := 0, delivered_time := 0, known_lost := false }

/-- An inflight tracker holding only `c4Entry`, with 9 packets
delivered so far and an empty sample window. -/
def c4Inflight : Inflight :=
  { segments := [(1, c4Entry)], rtos := [], lost_count := 0,
    bw := { delivered := 9, delivered_time := 0,
            delivery_max_filter := MinQueue.empty SampleT } }

/-- On any tracked ack, the bandwidth window afterwards: the delivered
count is incremented and the sample queue is the old one extended by
the `(delivered, send_time)`-based sample and front-pruned at two
seconds; the queue stays well-formed. -/
theorem markAcked_filter_contents (fl : Inflight) (now rv : ℚ) (q : ℕ)
    (e : InflightEntry) (hlk : segLookup q fl.segments = some e)
    (hwf : fl.bw.delivery_max_filter.WF) :
    (fl.mark_acked now rv q).1.bw.delivered = fl.bw.delivered + 1 ∧
    (fl.mark_acked now rv q).1.bw.delivery_max_filter.contents =
      (fl.bw.delivery_max_filter.contents ++
        [mkSample (((fl.bw.delivered + 1 - e.delivered : ℕ) : ℚ) / (now - e.send_time))
          now]).dropWhile (fun s => decide (now - sampleTime s > 2)) ∧
    (fl.mark_acked now rv q).1.bw.delivery_max_filter.WF := by
  obtain ⟨-, -, -, -, hbw, -, -⟩ := markAcked_effects fl now rv q e hlk
  rw [hbw]
  have hpwf : (fl.bw.delivery_max_filter.push_back
      (mkSample (((fl.bw.delivered + 1 - e.delivered : ℕ) : ℚ) / (now - e.send_time))
        now)).WF := MinQueue.push_back_WF _ _ hwf
  obtain ⟨hcont, hprwf⟩ := pruneFilter_spec now
    (fl.bw.delivery_max_filter.push_back
      (mkSample (((fl.bw.delivered + 1 - e.delivered : ℕ) : ℚ) / (now - e.send_time))
        now)).len
    (fl.bw.delivery_max_filter.push_back
      (mkSample (((fl.bw.delivered + 1 - e.delivered : ℕ) : ℚ) / (now - e.send_time))
        now))
    hpwf (le_refl _)
  refine ⟨rfl, ?_, hprwf⟩
  show (pruneFilter now _ _).contents = _
  rw [hcont, MinQueue.push_back_contents]

/-- **C4, counterexample.** Acking the retransmitted packet `c4Entry`
at time 10 *does* record a delivery-rate sample — rate 2, computed as
`(delivered_now − packet.delivered) / (now − packet.send_time)
= 10 / 5` — whereas the claim prescribes no sample at all for
retransmitted packets, and its formula (using `packet.delivered_time`)
would give `10 / 10 = 1 ≠ 2`. -/
theorem claim_C4_counterexample :
    ((c4Inflight.mark_acked 10 0 1).1.bw.delivery_max_filter.contents.map sampleRate)
      = [2] ∧
    specAckSamples c4Entry.retrans (c4Inflight.bw.delivered + 1) c4Entry.delivered
      10 c4Entry.delivered_time = [] ∧
    ((c4Inflight.bw.delivered + 1 - c4Entry.delivered : ℕ) : ℚ) /
      ((10 : ℚ) - c4Entry.delivered_time) = 1 ∧
    (1 : ℚ) ≠ 2 := by
  have hlk : segLookup 1 c4Inflight.segments = some c4Entry := rfl
  obtain ⟨-, hcont, -⟩ := markAcked_filter_contents c4Inflight 10 0 1 c4Entry hlk
    ⟨trivial, trivial⟩
  refine ⟨?_, by simp [specAckSamples, c4Entry], ?_, by norm_num⟩
  · rw [hcont]
    have hc0 : c4Inflight.bw.delivery_max_filter.contents = [] := rfl
    rw [hc0, List.nil_append, List.dropWhile_cons]
    rw [if_neg (by
      simp only [sampleTime_mkSample, decide_eq_true_eq]
      norm_num)]
    simp only [List.dropWhile_nil, List.map_cons, List.map_nil, sampleRate_mkSample]
    norm_num [c4Inflight, c4Entry]
  · norm_num [c4Inflight, c4Entry]

/-- **C4 (amended).** When an inflight packet is acknowledged,
`mark_acked` always records exactly one delivery-rate sample — for
retransmitted packets too — equal to
`(delivered_now − packet.delivered) / (now − packet.send_time)`, where
`packet.delivered` was stamped at transmit time but the time in the
denominator is the packet's *send time*, not its `delivered_time`
stamp; the sample window then drops its leading samples older than two
seconds, and the current delivery-rate estimate equals the maximum
sample rate retained in that window (zero when the window is empty). -/
theorem claim_C4_delivery_rate_max (fl : Inflight) (now rv : ℚ) (q : ℕ)
    (e : InflightEntry) (hlk : segLookup q fl.segments = some e)
    (hwf : fl.bw.delivery_max_filter.WF) :
    (fl.mark_acked now rv q).1.bw.delivered = fl.bw.delivered + 1 ∧
    (fl.mark_acked now rv q).1.bw.delivery_max_filter.contents =
      (fl.bw.delivery_max_filter.contents ++
        [mkSample (((fl.bw.delivered + 1 - e.delivered : ℕ) : ℚ) / (now - e.send_time))
          now]).dropWhile (fun s => decide (now - sampleTime s > 2)) ∧
    ((fl.mark_acked now rv q).1.bw.delivery_max_filter.contents = [] →
      (fl.mark_acked now rv q).1.bw.delivery_rate = 0) ∧
    (∀ x xs, (fl.mark_acked now rv q).1.bw.delivery_max_filter.contents = x :: xs →
      ∃ m ∈ (fl.mark_acked now rv q).1.bw.delivery_max_filter.contents,
        (fl.mark_acked now rv q).1.bw.delivery_rate = sampleRate m ∧
        ∀ y ∈ (fl.mark_acked now rv q).1.bw.delivery_max_filter.contents,
          sampleRate y ≤ sampleRate m) := by
  obtain ⟨hdel, hcont, hprwf⟩ := markAcked_filter_contents fl now rv q e hlk hwf
  refine ⟨hdel, hcont, ?_, ?_⟩
  · intro hnil
    show (((fl.mark_acked now rv q).1.bw.delivery_max_filter.minElem.map
      sampleRate).getD 0) = 0
    rw [(MinQueue.minElem_correct _ hprwf).1 hnil]
    rfl
  · intro x xs hcons
    obtain ⟨m, hm, hmem, hle⟩ := (MinQueue.minElem_correct _ hprwf).2 x xs hcons
    refine ⟨m, hmem, ?_, ?_⟩
    · show (((fl.mark_acked now rv q).1.bw.delivery_max_filter.minElem.map
        sampleRate).getD 0) = sampleRate m
      rw [hm]
      rfl
    · intro y hy
      exact sampleRate_le_of_le m y (hle y hy)

/-- Witness for C4 at the concrete one-entry state `c4Inflight`. -/
theorem claim_C4_delivery_rate_max_witness :
    segLookup 1 c4Inflight.segments = some c4Entry ∧
    (c4Inflight.mark_acked 10 0 1).1.bw.delivered = c4Inflight.bw.delivered + 1 :=
  ⟨rfl,
    (claim_C4_delivery_rate_max c4Inflight 10 0 1 c4Entry rfl ⟨trivial, trivial⟩).1⟩

/-! ## The listener session table (`src/listener/table.rs`)

Resume tokens (`Buff`) and socket addresses are abstracted to `ℕ`
identifiers; `Arc<SessionBack>` handles to `ℕ` ids.  The two `BTreeMap`s
and the `FxHashMap` inside `ShardedAddrs` are association lists with
distinct keys (established for reachable tables); `Instant`s are
rational, with `now` an explicit argument of `insert_addr`/`rebind`. -/

/-- Map lookup. -/
def tblLookup {V : Type} (k : ℕ) : List (ℕ × V) → Option V
  | [] => none
  | (k', v) :: rest => if k = k' then some v else tblLookup k rest

/-- Map insert, replacing any existing binding. -/
def tblInsert {V : Type} (k : ℕ) (v : V) : List (ℕ × V) → List (ℕ × V)
  | [] => [(k, v)]
  | (k', v') :: rest =>
    if k = k' then (k, v) :: rest else (k', v') :: tblInsert k v rest

/-- Map removal. -/
def tblRemove {V : Type} (k : ℕ) : List (ℕ × V) → List (ℕ × V)
  | [] => []
  | (k', v') :: rest =>
    if k = k' then rest else (k', v') :: tblRemove k rest

/-- `ShardedAddrs`: `shard_id → (addr, last_used)`. -/
abbrev ShardedAddrs := List (ℕ × ℕ × ℚ)

/-- The addresses stored in a `ShardedAddrs` (`map.values()`'s first
components). -/
def saValues (sa : ShardedAddrs) : List ℕ := sa.map (fun s => s.2.1)

/-- `ShardedAddrs::new(initial_shard, initial_addr)`. -/
def ShardedAddrs.new (initial_shard initial_addr : ℕ) (now : ℚ) : ShardedAddrs :=
  [(initial_shard, initial_addr, now)]

/-- `ShardedAddrs::insert_addr` (table.rs lines 50-52): bind a shard to
an address, returning the address previously bound to that shard. -/
def insert_addr (shard addr : ℕ) (now : ℚ) : ShardedAddrs → ShardedAddrs × Option ℕ
  | [] => ([(shard, addr, now)], none)
  | (s, a, t) :: rest =>
    if shard = s then ((shard, addr, now) :: rest, some a)
    else
      let r := insert_addr shard addr now rest
      ((s, a, t) :: r.1, r.2)

/-- `SessionTable` (table.rs lines 60-64): `token → (session_back,
sharded_addrs)` and `addr → token`. -/
structure SessionTable where
  token_to_sess : List (ℕ × ℕ × ShardedAddrs)
  addr_to_token : List (ℕ × ℕ)

/-- `SessionTable::default()`. -/
def SessionTable.empty : SessionTable := ⟨[], []⟩

/-- `SessionTable::rebind` (table.rs lines 67-81). -/
def SessionTable.rebind (st : SessionTable) (addr shard_id token : ℕ) (now : ℚ) :
    Bool × SessionTable :=
  match tblLookup token st.token_to_sess with
  | some (sid, sa) =>
    let r := insert_addr shard_id addr now sa
    let a2t := match r.2 with
      | some old => tblRemove old st.addr_to_token
      | none => st.addr_to_token
    (true,
      { token_to_sess := tblInsert token (sid, r.1) st.token_to_sess,
        addr_to_token := tblInsert addr token a2t })
  | none => (false, st)

/-- `SessionTable::delete` (table.rs lines 82-90). -/
def SessionTable.delete (st : SessionTable) (token : ℕ) : SessionTable :=
  match tblLookup token st.token_to_sess with
  | some (_, sa) =>
    { token_to_sess := tblRemove token st.token_to_sess,
      addr_to_token := (saValues sa).foldl (fun m a => tblRemove a m) st.addr_to_token }
  | none => st

/-- `SessionTable::lookup` (table.rs lines 92-98). -/
def SessionTable.lookup (st : SessionTable) (addr : ℕ) : Option ℕ :=
  match tblLookup addr st.addr_to_token with
  | none => none
  | some token =>
    match tblLookup token st.token_to_sess with
    | none => none
    | some (sid, _) => some sid

/-- `SessionTable::new_sess` (table.rs lines 100-112): inserts the
token binding; `addr_to_token` is untouched. -/
def SessionTable.new_sess (st : SessionTable) (token sid : ℕ) (sa : ShardedAddrs) :
    SessionTable :=
  { st with token_to_sess := tblInsert token (sid, sa) st.token_to_sess }

/-- How many sessions currently list an address among their
`sharded_addrs`. -/
def sessionsWithAddr (st : SessionTable) (a : ℕ) : ℕ :=
  (st.token_to_sess.filter (fun ts => (saValues ts.2.2).contains a)).length

/-- The table states the listener can produce: tokens given to
`new_sess` are freshly minted (not already present). -/
inductive TblReach : SessionTable → Prop where
  | init : TblReach SessionTable.empty
  | new_sess {st : SessionTable} (token sid : ℕ) (sa : ShardedAddrs)
      (hfresh : tblLookup token st.token_to_sess = none) :
      TblReach st → TblReach (st.new_sess token sid sa)
  | rebind {st : SessionTable} (addr shard_id token : ℕ) (now : ℚ) :
      TblReach st → TblReach (st.rebind addr shard_id token now).2
  | delete {st : SessionTable} (token : ℕ) :
      TblReach st → TblReach (st.delete token)

theorem tblLookup_insert_self {V : Type} (k : ℕ) (v : V) :
    ∀ (m : List (ℕ × V)), tblLookup k (tblInsert k v m) = some v := by
  intro m
  induction m with
  | nil => simp [tblInsert, tblLookup]
  | cons hd rest ih =>
    obtain ⟨k', v'⟩ := hd
    by_cases h : k = k' <;> simp [tblInsert, tblLookup, h, ih]

theorem tblLookup_insert_ne {V : Type} (j k : ℕ) (v : V) (h : j ≠ k) :
    ∀ (m : List (ℕ × V)), tblLookup j (tblInsert k v m) = tblLookup j m := by
  intro m
  induction m with
  | nil => simp [tblInsert, tblLookup, h]
  | cons hd rest ih =>
    obtain ⟨k', v'⟩ := hd
    by_cases hk : k = k'
    · subst hk
      simp [tblInsert, tblLookup, h]
    · by_cases hj : j = k' <;> simp [tblInsert, tblLookup, hk, hj, ih]

theorem tblLookup_remove_ne {V : Type} (j k : ℕ) (h : j ≠ k) :
    ∀ (m : List (ℕ × V)), tblLookup j (tblRemove k m) = tblLookup j m := by
  intro m
  induction m with
  | nil => simp [tblRemove, tblLookup]
  | cons hd rest ih =>
    obtain ⟨k', v'⟩ := hd
    by_cases hk : k = k'
    · subst hk
      simp [tblRemove, tblLookup, h]
    · by_cases hj : j = k' <;> simp [tblRemove, tblLookup, hk, hj, ih]

theorem tblRemove_sublist {V : Type} (k : ℕ) :
    ∀ (m : List (ℕ × V)), (tblRemove k m).Sublist m := by
  intro m
  induction m with
  | nil => simp [tblRemove]
  | cons hd rest ih =>
    obtain ⟨k', v'⟩ := hd
    by_cases h : k = k'
    · simp [tblRemove, h]
    · simp only [tblRemove, if_neg h]
      exact ih.cons₂ (k', v')

theorem tblLookup_eq_none {V : Type} (k : ℕ) : ∀ (m : List (ℕ × V)),
    tblLookup k m = none ↔ k ∉ m.map Prod.fst := by
  intro m
  induction m with
  | nil => simp [tblLookup]
  | cons hd rest ih =>
    obtain ⟨k', v'⟩ := hd
    by_cases h : k = k' <;> simp [tblLookup, h, ih]

theorem tblLookup_remove_self {V : Type} (k : ℕ) :
    ∀ (m : List (ℕ × V)), (m.map Prod.fst).Nodup →
      tblLookup k (tblRemove k m) = none := by
  intro m
  induction m with
  | nil => intro _; simp [tblRemove, tblLookup]
  | cons hd rest ih =>
    obtain ⟨k', v'⟩ := hd
    intro hnd
    simp only [List.map_cons, List.nodup_cons] at hnd
    by_cases h : k = k'
    · subst h
      simp only [tblRemove, if_pos rfl]
      rw [tblLookup_eq_none]
      exact hnd.1
    · simp only [tblRemove, if_neg h, tblLookup, if_neg h]
      exact ih hnd.2

theorem tblInsert_mem_keys {V : Type} (k : ℕ) (v : V) :
    ∀ (m : List (ℕ × V)) (x : ℕ), x ∈ (tblInsert k v m).map Prod.fst →
      x = k ∨ x ∈ m.map Prod.fst := by
  intro m
  induction m with
  | nil =>
    intro x hx
    simp only [tblInsert, List.map_cons, List.map_nil, List.mem_singleton] at hx
    exact Or.inl hx
  | cons hd rest ih =>
    obtain ⟨k', v'⟩ := hd
    intro x hx
    by_cases h : k = k'
    · rw [show tblInsert k v ((k', v') :: rest) = (k, v) :: rest by
        simp [tblInsert, h]] at hx
      simp only [List.map_cons, List.mem_cons] at hx
      rcases hx with rfl | hx
      · exact Or.inl rfl
      · exact Or.inr (by simp only [List.map_cons, List.mem_cons]; exact Or.inr hx)
    · rw [show tblInsert k v ((k', v') :: rest) = (k', v') :: tblInsert k v rest by
        simp [tblInsert, h]] at hx
      simp only [List.map_cons, List.mem_cons] at hx
      rcases hx with rfl | hx
      · exact Or.inr (by simp)
      · rcases ih x hx with hh | hh
        · exact Or.inl hh
        · exact Or.inr (by simp only [List.map_cons, List.mem_cons]; exact Or.inr hh)

theorem tblInsert_nodup {V : Type} (k : ℕ) (v : V) :
    ∀ (m : List (ℕ × V)), (m.map Prod.fst).Nodup →
      ((tblInsert k v m).map Prod.fst).Nodup := by
  intro m
  induction m with
  | nil => intro _; simp [tblInsert]
  | cons hd rest ih =>
    obtain ⟨k', v'⟩ := hd
    intro hnd
    simp only [List.map_cons, List.nodup_cons] at hnd
    by_cases h : k = k'
    · subst h
      rw [show tblInsert k v ((k, v') :: rest) = (k, v) :: rest by simp [tblInsert]]
      simp only [List.map_cons, List.nodup_cons]
      exact hnd
    · rw [show tblInsert k v ((k', v') :: rest) = (k', v') :: tblInsert k v rest by
        simp [tblInsert, h]]
      simp only [List.map_cons, List.nodup_cons]
      refine ⟨?_, ih hnd.2⟩
      intro hmem
      rcases tblInsert_mem_keys k v rest k' hmem with hh | hh
      · exact h hh.symm
      · exact hnd.1 hh

theorem tblRemove_nodup {V : Type} (k : ℕ) (m : List (ℕ × V))
    (hnd : (m.map Prod.fst).Nodup) : ((tblRemove k m).map Prod.fst).Nodup :=
  ((tblRemove_sublist k m).map Prod.fst).nodup hnd

theorem foldl_remove_nodup {V : Type} : ∀ (as : List ℕ) (m : List (ℕ × V)),
    (m.map Prod.fst).Nodup →
    ((as.foldl (fun m a => tblRemove a m) m).map Prod.fst).Nodup := by
  intro as
  induction as with
  | nil => intro m h; exact h
  | cons a rest ih =>
    intro m h
    rw [List.foldl_cons]
    exact ih _ (tblRemove_nodup a m h)

theorem tblLookup_foldl_remove {V : Type} : ∀ (as : List ℕ) (m : List (ℕ × V)) (j : ℕ),
    (m.map Prod.fst).Nodup →
    tblLookup j (as.foldl (fun m a => tblRemove a m) m) =
      if j ∈ as then none else tblLookup j m := by
  intro as
  induction as with
  | nil => intro m j _; simp
  | cons a rest ih =>
    intro m j hnd
    rw [List.foldl_cons, ih _ j (tblRemove_nodup a m hnd)]
    by_cases hj : j = a
    · subst hj
      by_cases hmem : j ∈ rest
      · simp [hmem]
      · simp only [List.mem_cons, true_or, if_pos]
        rw [if_neg hmem]
        exact tblLookup_remove_self j m hnd
    · by_cases hmem : j ∈ rest
      · simp [hmem, hj]
      · have : j ∉ a :: rest := by simp [hj, hmem]
        rw [if_neg hmem, if_neg this]
        exact tblLookup_remove_ne j a hj m

theorem insert_addr_mem_self (shard addr : ℕ) (now : ℚ) :
    ∀ (sa : ShardedAddrs), addr ∈ saValues (insert_addr shard addr now sa).1 := by
  intro sa
  induction sa with
  | nil => simp [insert_addr, saValues]
  | cons hd rest ih =>
    obtain ⟨s, a, t⟩ := hd
    by_cases h : shard = s
    · simp [insert_addr, h, saValues]
    · simp only [insert_addr, if_neg h]
      simp only [saValues, List.map_cons, List.mem_cons]
      exact Or.inr ih

theorem insert_addr_values (shard addr : ℕ) (now : ℚ) :
    ∀ (sa : ShardedAddrs) (x : ℕ), x ∈ saValues sa →
      x ∈ saValues (insert_addr shard addr now sa).1 ∨
      (insert_addr shard addr now sa).2 = some x := by
  intro sa
  induction sa with
  | nil => intro x hx; simp [saValues] at hx
  | cons hd rest ih =>
    obtain ⟨s, a, t⟩ := hd
    intro x hx
    simp only [saValues, List.map_cons, List.mem_cons] at hx
    by_cases h : shard = s
    · simp only [insert_addr, if_pos h]
      rcases hx with rfl | hx
      · exact Or.inr rfl
      · exact Or.inl (by simp only [saValues, List.map_cons, List.mem_cons]; exact Or.inr hx)
    · simp only [insert_addr, if_neg h]
      rcases hx with rfl | hx
      · refine Or.inl ?_
        simp [saValues]
      · rcases ih x hx with hh | hh
        · refine Or.inl ?_
          simp only [saValues, List.map_cons, List.mem_cons]
          refine Or.inr ?_
          simpa [saValues] using hh
        · exact Or.inr hh

/-- The table invariant: both maps have distinct keys, and every
address bound in `addr_to_token` is listed in the `sharded_addrs` of
the session its token maps to. -/
def TblWF (st : SessionTable) : Prop :=
  (st.token_to_sess.map Prod.fst).Nodup ∧
  (st.addr_to_token.map Prod.fst).Nodup ∧
  ∀ addr token, tblLookup addr st.addr_to_token = some token →
    ∃ sid sa, tblLookup token st.token_to_sess = some (sid, sa) ∧ addr ∈ saValues sa

theorem rebind_WF (st : SessionTable) (addr shard_id token : ℕ) (now : ℚ)
    (hwf : TblWF st) : TblWF (st.rebind addr shard_id token now).2 := by
  obtain ⟨hnd1, hnd2, hinv⟩ := hwf
  simp only [SessionTable.rebind]
  cases hlkt : tblLookup token st.token_to_sess with
  | none => exact ⟨hnd1, hnd2, hinv⟩
  | some p =>
    obtain ⟨sid, sa⟩ := p
    rcases hins : insert_addr shard_id addr now sa with ⟨sa', oldo⟩
    simp only [hins]
    cases oldo with
    | none =>
      refine ⟨tblInsert_nodup _ _ _ hnd1, tblInsert_nodup _ _ _ hnd2, ?_⟩
      intro addr2 token2 hlk2
      dsimp only at hlk2 ⊢
      by_cases haddr : addr2 = addr
      · subst haddr
        rw [tblLookup_insert_self] at hlk2
        simp only [Option.some.injEq] at hlk2
        subst hlk2
        refine ⟨sid, sa', by rw [tblLookup_insert_self], ?_⟩
        have := insert_addr_mem_self shard_id addr2 now sa
        rwa [hins] at this
      · rw [tblLookup_insert_ne addr2 addr _ haddr] at hlk2
        obtain ⟨sid2, sa2, hlk3, hmem⟩ := hinv addr2 token2 hlk2
        by_cases htok : token2 = token
        · subst htok
          rw [hlkt] at hlk3
          simp only [Option.some.injEq, Prod.mk.injEq] at hlk3
          obtain ⟨rfl, rfl⟩ := hlk3
          refine ⟨sid, sa', by rw [tblLookup_insert_self], ?_⟩
          rcases insert_addr_values shard_id addr now sa addr2 hmem with hh | hh
          · rwa [hins] at hh
          · rw [hins] at hh
            cases hh
        · refine ⟨sid2, sa2, ?_, hmem⟩
          rw [tblLookup_insert_ne token2 token _ htok]
          exact hlk3
    | some old =>
      refine ⟨tblInsert_nodup _ _ _ hnd1,
        tblInsert_nodup _ _ _ (tblRemove_nodup _ _ hnd2), ?_⟩
      intro addr2 token2 hlk2
      dsimp only at hlk2 ⊢
      by_cases haddr : addr2 = addr
      · subst haddr
        rw [tblLookup_insert_self] at hlk2
        simp only [Option.some.injEq] at hlk2
        subst hlk2
        refine ⟨sid, sa', by rw [tblLookup_insert_self], ?_⟩
        have := insert_addr_mem_self shard_id addr2 now sa
        rwa [hins] at this
      · rw [tblLookup_insert_ne addr2 addr _ haddr] at hlk2
        by_cases h2 : addr2 = old
        · subst h2
          rw [tblLookup_remove_self addr2 _ hnd2] at hlk2
          cases hlk2
        · rw [tblLookup_remove_ne addr2 old h2] at hlk2
          obtain ⟨sid2, sa2, hlk3, hmem⟩ := hinv addr2 token2 hlk2
          by_cases htok : token2 = token
          · subst htok
            rw [hlkt] at hlk3
            simp only [Option.some.injEq, Prod.mk.injEq] at hlk3
            obtain ⟨rfl, rfl⟩ := hlk3
            refine ⟨sid, sa', by rw [tblLookup_insert_self], ?_⟩
            rcases insert_addr_values shard_id addr now sa addr2 hmem with hh | hh
            · rwa [hins] at hh
            · rw [hins] at hh
              simp only [Option.some.injEq] at hh
              exact absurd hh.symm h2
          · refine ⟨sid2, sa2, ?_, hmem⟩
            rw [tblLookup_insert_ne token2 token _ htok]
            exact hlk3

theorem TblReach_WF {st : SessionTable} (h : TblReach st) : TblWF st := by
  induction h with
  | init =>
    refine ⟨List.nodup_nil, List.nodup_nil, ?_⟩
    intro addr token hlk
    simp [SessionTable.empty, tblLookup] at hlk
  | @new_sess st token sid sa hfresh _ ih =>
    obtain ⟨hnd1, hnd2, hinv⟩ := ih
    refine ⟨tblInsert_nodup _ _ _ hnd1, hnd2, ?_⟩
    intro addr token2 hlk
    obtain ⟨sid2, sa2, hlk2, hmem⟩ := hinv addr token2 hlk
    have hne : token2 ≠ token := by
      rintro rfl
      rw [hfresh] at hlk2
      cases hlk2
    refine ⟨sid2, sa2, ?_, hmem⟩
    rw [show (st.new_sess token sid sa).token_to_sess =
        tblInsert token (sid, sa) st.token_to_sess from rfl]
    rw [tblLookup_insert_ne token2 token _ hne]
    exact hlk2
  | rebind addr shard_id token now _ ih => exact rebind_WF _ addr shard_id token now ih
  | @delete st token _ ih =>
    obtain ⟨hnd1, hnd2, hinv⟩ := ih
    rw [SessionTable.delete]
    cases hlkt : tblLookup token st.token_to_sess with
    | none => exact ⟨hnd1, hnd2, hinv⟩
    | some p =>
      obtain ⟨sid, sa⟩ := p
      refine ⟨tblRemove_nodup _ _ hnd1, foldl_remove_nodup _ _ hnd2, ?_⟩
      intro addr2 token2 hlk2
      dsimp only at hlk2 ⊢
      rw [tblLookup_foldl_remove _ _ _ hnd2] at hlk2
      by_cases hmem : addr2 ∈ saValues sa
      · rw [if_pos hmem] at hlk2
        cases hlk2
      · rw [if_neg hmem] at hlk2
        obtain ⟨sid2, sa2, hlk3, hmem2⟩ := hinv addr2 token2 hlk2
        have htok : token2 ≠ token := by
          rintro rfl
          rw [hlkt] at hlk3
          simp only [Option.some.injEq, Prod.mk.injEq] at hlk3
          obtain ⟨rfl, rfl⟩ := hlk3
          exact hmem hmem2
        refine ⟨sid2, sa2, ?_, hmem2⟩
        rw [tblLookup_remove_ne token2 token htok]
        exact hlk3

/-- **C6, counterexample.** "Every address in `addr→token` appears in
the `sharded_addrs` of *exactly one* session" fails: after session 100
binds address 7 on shard 0 and then session 200 rebinds the same
address 7 on its own shard 0, address 7 is still listed in session
100's `sharded_addrs` (rebinding another session never cleans it up),
so it appears in the sharded_addrs of two sessions. -/
theorem claim_C6_counterexample :
    tblLookup 7
      (((((SessionTable.empty.new_sess 100 0 (ShardedAddrs.new 0 50 0)).rebind
          7 0 100 1).2.new_sess 200 1 (ShardedAddrs.new 0 60 2)).rebind
          7 0 200 3).2).addr_to_token = some 200 ∧
    sessionsWithAddr
      (((((SessionTable.empty.new_sess 100 0 (ShardedAddrs.new 0 50 0)).rebind
          7 0 100 1).2.new_sess 200 1 (ShardedAddrs.new 0 60 2)).rebind
          7 0 200 3).2) 7 = 2 ∧
    (2 : ℕ) ≠ 1 := by
  refine ⟨by decide, by decide, by decide⟩

/-- **C6 (amended).** For the listener session table, after any
sequence of `new_sess` (with freshly minted tokens), `rebind` and
`delete` operations, every address present in the `addr→token` map
appears in the `sharded_addrs` of *the session its token maps to*
(though possibly also in stale entries of other sessions), and
`rebind(addr, shard_id, token)` removes from `addr→token` the address
previously bound to that shard of that session. -/
theorem claim_C6_table_invariant (st : SessionTable) (h : TblReach st) :
    (∀ addr token, tblLookup addr st.addr_to_token = some token →
      ∃ sid sa, tblLookup token st.token_to_sess = some (sid, sa) ∧
        addr ∈ saValues sa) ∧
    (∀ addr shard_id token now sid sa old,
      tblLookup token st.token_to_sess = some (sid, sa) →
      (insert_addr shard_id addr now sa).2 = some old → old ≠ addr →
      tblLookup old ((st.rebind addr shard_id token now).2).addr_to_token = none) := by
  obtain ⟨hnd1, hnd2, hinv⟩ := TblReach_WF h
  refine ⟨hinv, ?_⟩
  intro addr shard_id token now sid sa old hlkt hins hne
  simp only [SessionTable.rebind, hlkt]
  rcases hpair : insert_addr shard_id addr now sa with ⟨sa', oldo⟩
  rw [hpair] at hins
  simp only at hins
  subst hins
  simp only
  rw [tblLookup_insert_ne old addr _ hne]
  exact tblLookup_remove_self old _ hnd2

/-- Witness for C6: in the reachable table where session 100 holds
address 7, the invariant instantiates to an explicit session entry. -/
theorem claim_C6_table_invariant_witness :
    ∃ sid sa,
      tblLookup 100
        (((SessionTable.empty.new_sess 100 0 (ShardedAddrs.new 0 50 0)).rebind
          7 0 100 1).2).token_to_sess = some (sid, sa) ∧ 7 ∈ saValues sa :=
  (claim_C6_table_invariant _
    (TblReach.rebind 7 0 100 1
      (TblReach.new_sess 100 0 (ShardedAddrs.new 0 50 0) (by decide) TblReach.init))).1
    7 100 (by decide)

/-! ## The CUBIC controller (`src/mux/congestion/cubic.rs`)

`f64` state is modelled over ℚ.  The one inexact float computation,
`kay = (cwnd_max * (1 - beta) / cee).powf(0.3333)` (an approximate cube
root: note the exponent is `0.3333`, not exactly 1/3), has no exact
rational embedding and is passed to the operations as an explicit
parameter, exactly where the source reads it; every other arithmetic
step is mirrored.  `Instant::now()` / `elapsed` become the explicit
`now` and `now - t`. -/

/-- `Cubic` (cubic.rs lines 6-13). -/
structure Cubic where
  cwnd : ℚ
  beta : ℚ
  cee : ℚ
  last_loss : Option ℚ
  cwnd_max : ℚ
  bdp : ℚ

/-- `Cubic::new` (cubic.rs lines 17-26). -/
def Cubic.new (beta cee : ℚ) : Cubic := ⟨16, beta, cee, none, 1000, 0⟩

/-- `Cubic::recalculate_cwnd` (cubic.rs lines 28-35): when a loss has
been recorded, `cwnd = max(cee * (elapsed*3 - kay)^3 + cwnd_max, 4)` —
note the elapsed time is *tripled* and the result floored at 4. -/
def Cubic.recalculate_cwnd (c : Cubic) (kay now : ℚ) : Cubic :=
  match c.last_loss with
  | none => c
  | some t => { c with cwnd := max (c.cee * ((now - t) * 3 - kay) ^ 3 + c.cwnd_max) 4 }

/-- `Cubic::cwnd` (cubic.rs lines 39-41): `(cwnd.max(bdp)) as usize`
(Rust's saturating float-to-usize cast: truncation, 0 for negatives). -/
def Cubic.cwnd_eff (c : Cubic) : ℕ := (max c.cwnd c.bdp).floor.toNat

/-- `Cubic::mark_ack` (cubic.rs lines 43-52). -/
def Cubic.mark_ack (c : Cubic) (kay now : ℚ) (current_bdp : ℕ) : Cubic :=
  let max_cwnd := c.cwnd + min 1 (32 / c.cwnd)
  let c1 := { c with cwnd := max_cwnd }
  let c2 := c1.recalculate_cwnd kay now
  { c2 with cwnd := min c2.cwnd max_cwnd, bdp := (current_bdp : ℚ) }

/-- `Cubic::mark_loss` (cubic.rs lines 54-61): squelch unless
`cwnd >= bdp`. -/
def Cubic.mark_loss (c : Cubic) (kay now : ℚ) : Cubic :=
  if c.cwnd ≥ c.bdp then
    Cubic.recalculate_cwnd { c with last_loss := some now, cwnd_max := c.cwnd } kay now
  else c

/-- Modelled from the spec (§4.5): on loss, update only when
`cwnd > bdp` (strictly), "else squelch"; on ACK, take the smaller of the
additive probe and the curve `cee * (t - K)^3 + cwnd_max` with the
elapsed time *not* tripled and no floor.  Used only for comparison with
the code's behaviour. -/
def specMarkLoss (c : Cubic) (now : ℚ) : Cubic :=
  if c.cwnd > c.bdp then { c with last_loss := some now, cwnd_max := c.cwnd } else c

/-- Modelled from the spec (§4.5): the on-ACK update as the spec words
it (see `specMarkLoss`). -/
def specMarkAck (c : Cubic) (kay now : ℚ) (current_bdp : ℕ) : Cubic :=
  match c.last_loss with
  | none => { c with cwnd := c.cwnd + min 1 (32 / c.cwnd), bdp := (current_bdp : ℚ) }
  | some t =>
    { c with
      cwnd := min (c.cwnd + min 1 (32 / c.cwnd))
        (c.cee * ((now - t) - kay) ^ 3 + c.cwnd_max),
      bdp := (current_bdp : ℚ) }

/-- A CUBIC state sitting exactly at `cwnd = bdp`, with no recorded
loss. -/
def c7AtBdp : Cubic := ⟨16, 7/10, 2/5, none, 36, 16⟩

/-- A CUBIC state with a loss recorded at time 0. -/
def c7AfterLoss : Cubic := ⟨100, 7/10, 2/5, some 0, 50, 0⟩

/-- **C7, counterexample.**  (i) On loss at `cwnd = bdp` the code
*does* react (`>=`), while the claim says it changes nothing (`>`):
the code records the loss time.  (ii) On ACK one second after a loss
with `kay = 3`, the code computes the curve at the *tripled* time
`(3·1 - 3)` giving `cwnd = 50`, while the claim's formula `(1 - 3)`
gives `234/5 = 46.8`. -/
theorem claim_C7_counterexample :
    (c7AtBdp.mark_loss 3 100).last_loss = some 100 ∧
    (specMarkLoss c7AtBdp 100).last_loss = none ∧
    some (100 : ℚ) ≠ (none : Option ℚ) ∧
    (c7AfterLoss.mark_ack 3 1 0).cwnd = 50 ∧
    (specMarkAck c7AfterLoss 3 1 0).cwnd = 234/5 ∧
    (50 : ℚ) ≠ 234/5 := by
  refine ⟨?_, ?_, by simp, ?_, ?_, by norm_num⟩
  · rw [Cubic.mark_loss, if_pos (by norm_num [c7AtBdp])]
    simp [Cubic.recalculate_cwnd]
  · rw [specMarkLoss, if_neg (by norm_num [c7AtBdp])]
    rfl
  · show (Cubic.mark_ack c7AfterLoss 3 1 0).cwnd = 50
    rw [Cubic.mark_ack]
    norm_num [c7AfterLoss, Cubic.recalculate_cwnd]
  · rw [specMarkAck]
    norm_num [c7AfterLoss]

/-- **C7 (amended).** On every ACK the code sets `cwnd` to the smaller
of the additive probe `cwnd + min(1, 32/cwnd)` and — when a loss has
been recorded — the cubic curve `max(cee * (3·t - kay)^3 + cwnd_max,
4)` evaluated at *three times* the elapsed time `t` and floored at 4,
where `kay` is the `powf(0.3333)` cube-root approximation of
`(cwnd_max·(1−beta)/cee)`; with no recorded loss, only the additive
probe applies.  `bdp` is refreshed from the ACK.  On loss, the code
reacts when `cwnd ≥ bdp` (including equality): it records the loss
time, sets `cwnd_max = cwnd` and recomputes the curve; otherwise it
changes nothing.  The effective window is `⌊max(cwnd, bdp)⌋`. -/
theorem claim_C7_cubic_behaviour (c : Cubic) (kay now : ℚ) (current_bdp : ℕ) (t : ℚ) :
    (c.last_loss = none →
      (c.mark_ack kay now current_bdp).cwnd = c.cwnd + min 1 (32 / c.cwnd)) ∧
    (c.last_loss = some t →
      (c.mark_ack kay now current_bdp).cwnd =
        min (c.cwnd + min 1 (32 / c.cwnd))
          (max (c.cee * ((now - t) * 3 - kay) ^ 3 + c.cwnd_max) 4)) ∧
    (c.mark_ack kay now current_bdp).bdp = (current_bdp : ℚ) ∧
    (c.bdp ≤ c.cwnd →
      (c.mark_loss kay now).last_loss = some now ∧
      (c.mark_loss kay now).cwnd_max = c.cwnd) ∧
    (¬ c.bdp ≤ c.cwnd → c.mark_loss kay now = c) ∧
    (c.bdp ≤ c.cwnd → c.cwnd_eff = c.cwnd.floor.toNat) ∧
    (c.cwnd ≤ c.bdp → c.cwnd_eff = c.bdp.floor.toNat) := by
  refine ⟨?_, ?_, ?_, ?_, ?_, ?_, ?_⟩
  · intro hnone
    simp only [Cubic.mark_ack, Cubic.recalculate_cwnd, hnone, min_self]
  · intro hsome
    simp only [Cubic.mark_ack, Cubic.recalculate_cwnd, hsome]
    rw [min_comm]
  · cases hll : c.last_loss <;> simp [Cubic.mark_ack, Cubic.recalculate_cwnd, hll]
  · intro hle
    rw [Cubic.mark_loss, if_pos hle]
    simp [Cubic.recalculate_cwnd]
  · intro hlt
    rw [Cubic.mark_loss, if_neg hlt]
  · intro hle
    rw [Cubic.cwnd_eff, max_eq_left hle]
  · intro hle
    rw [Cubic.cwnd_eff, max_eq_right hle]

/-- Witness for C7 at a fresh controller. -/
theorem claim_C7_cubic_behaviour_witness :
    (Cubic.new (7/10) (2/5)).last_loss = none ∧
    ((Cubic.new (7/10) (2/5)).mark_ack 3 1 5).cwnd =
      (Cubic.new (7/10) (2/5)).cwnd + min 1 (32 / (Cubic.new (7/10) (2/5)).cwnd) :=
  ⟨rfl, (claim_C7_cubic_behaviour (Cubic.new (7/10) (2/5)) 3 1 5 0).1 rfl⟩

/-! ## The packet-buffer pool (`src/buffer.rs`)

A mutable buffer is represented by its capacity (its contents are
cleared on reuse and never observed by the pool logic); the
thread-local `BUFF_POOL: RefCell<Vec<Vec<u8>>>` is a list of pooled
capacities with the top at the head. -/

/-- `impl Drop for BuffMut` (buffer.rs lines 39-50): push the vector
back whenever the pool holds fewer than 10000 entries — there is no
capacity check. -/
def dropBuffMut (cap : ℕ) (pool : List ℕ) : List ℕ :=
  if pool.length < 10000 then cap :: pool else pool

/-- `BuffMut::new` (buffer.rs lines 59-70): pop from the pool, or
allocate fresh with capacity 2048; the popped vector is cleared (length
0) but keeps its capacity. -/
def newBuffMut (pool : List ℕ) : ℕ × List ℕ :=
  match pool with
  | [] => (2048, [])
  | c :: rest => (c, rest)

/-- Modelled from the spec (§4.1): return to the free-list only
buffers of capacity ≤ 4096 while the list holds fewer than 1000
entries, freeing oversize buffers.  Used only for comparison. -/
def specDropBuffMut (cap : ℕ) (pool : List ℕ) : List ℕ :=
  if cap ≤ 4096 ∧ pool.length < 1000 then cap :: pool else pool

/-- Buffer-system states `(pool, live)`: the pooled capacities and the
capacities of live `BuffMut`s.  Live buffers are created by `new_mut`,
may grow (`extend_from_slice` only ever increases capacity), and return
to the pool on drop. -/
inductive BuffReach : List ℕ → List ℕ → Prop where
  | init : BuffReach [] []
  | new {pool live : List ℕ} :
      BuffReach pool live →
      BuffReach (newBuffMut pool).2 ((newBuffMut pool).1 :: live)
  | grow {pool live : List ℕ} (c c' : ℕ) (hmem : c ∈ live) (hge : c ≤ c') :
      BuffReach pool live → BuffReach pool (c' :: live.erase c)
  | drop {pool live : List ℕ} (c : ℕ) (hmem : c ∈ live) :
      BuffReach pool live → BuffReach (dropBuffMut c pool) (live.erase c)

theorem BuffReach_caps {pool live : List ℕ} (h : BuffReach pool live) :
    (∀ c ∈ pool, 2048 ≤ c) ∧ (∀ c ∈ live, 2048 ≤ c) := by
  induction h with
  | init => exact ⟨by simp, by simp⟩
  | @new pool live _ ih =>
    obtain ⟨hp, hl⟩ := ih
    cases pool with
    | nil =>
      refine ⟨by simp [newBuffMut], ?_⟩
      intro c hc
      rcases List.mem_cons.1 hc with rfl | hc
      · simp [newBuffMut]
      · exact hl c hc
    | cons c0 rest =>
      refine ⟨?_, ?_⟩
      · intro c hc
        exact hp c (by simp only [newBuffMut] at hc; simp [hc])
      · intro c hc
        rcases List.mem_cons.1 hc with rfl | hc
        · exact hp _ (by simp [newBuffMut])
        · exact hl c hc
  | grow c c' hmem hge _ ih =>
    obtain ⟨hp, hl⟩ := ih
    refine ⟨hp, ?_⟩
    intro d hd
    rcases List.mem_cons.1 hd with rfl | hd
    · exact le_trans (hl c hmem) hge
    · exact hl d (List.mem_of_mem_erase hd)
  | drop c hmem _ ih =>
    obtain ⟨hp, hl⟩ := ih
    refine ⟨?_, fun d hd => hl d (List.mem_of_mem_erase hd)⟩
    intro d hd
    rw [dropBuffMut] at hd
    split at hd
    · rcases List.mem_cons.1 hd with rfl | hd
      · exact hl d hmem
      · exact hp d hd
    · exact hp d hd

/-- **C8, counterexample.**  (i) Dropping a capacity-5000 buffer into
an empty pool *does* recycle it (the code has no capacity ≤ 4096
check), unlike the behaviour modelled from the spec.  (ii) With the
pool at 1000 entries the code still recycles (its bound is 10000, not
1000), while the spec-modelled drop leaves the pool unchanged. -/
theorem claim_C8_counterexample :
    dropBuffMut 5000 [] = [5000] ∧
    specDropBuffMut 5000 [] = [] ∧
    ([5000] : List ℕ) ≠ [] ∧
    dropBuffMut 2048 (List.replicate 1000 2048) =
      2048 :: List.replicate 1000 2048 ∧
    specDropBuffMut 2048 (List.replicate 1000 2048) = List.replicate 1000 2048 := by
  refine ⟨by decide, by decide, by decide, ?_, ?_⟩
  · rw [dropBuffMut, if_pos (by simp)]
  · rw [specDropBuffMut, if_neg (by simp)]

/-- **C8 (amended).** Dropping a mutable packet buffer returns it to
the per-thread free-list whenever the list holds fewer than 10000
entries — regardless of its capacity — and frees it only when the list
is full; `new_mut()` always returns a buffer with at least 2048 bytes
of capacity, popped from the free-list or freshly allocated with
capacity 2048, since every buffer entering the pool started at
capacity 2048 and capacities only grow. -/
theorem claim_C8_buffer_pool (pool live : List ℕ) (h : BuffReach pool live) :
    2048 ≤ (newBuffMut pool).1 ∧
    (∀ cap, pool.length < 10000 → dropBuffMut cap pool = cap :: pool) ∧
    (∀ cap, 10000 ≤ pool.length → dropBuffMut cap pool = pool) := by
  refine ⟨?_, ?_, ?_⟩
  · cases hp : pool with
    | nil => simp [newBuffMut]
    | cons c rest =>
      have hc := (BuffReach_caps h).1 c (by rw [hp]; exact List.mem_cons_self c rest)
      simpa [newBuffMut] using hc
  · intro cap hlen
    rw [dropBuffMut, if_pos hlen]
  · intro cap hlen
    rw [dropBuffMut, if_neg (by omega)]

/-- Witness for C8: from the initial empty pool, `new_mut` hands out a
capacity-2048 buffer and dropping recycles into the empty pool. -/
theorem claim_C8_buffer_pool_witness :
    2048 ≤ (newBuffMut []).1 ∧ dropBuffMut 2048 [] = [2048] := by
  have h := claim_C8_buffer_pool [] [] BuffReach.init
  exact ⟨h.1, h.2.1 2048 (by decide)⟩

/-! ## The client shard dispatcher (`src/client/inner.rs`)

The uploader loop's reset-interval logic.  Worker handles are
abstracted to their received-packet counters (`usize` as ℕ); the
`f64` statistics are modelled over ℚ: `uniform_pvalue` calls
`probability::distribution::Binomial::distribution`, the lower-tail
binomial CDF, rendered here as the exact rational sum. -/

/-- Lower-tail CDF of the binomial distribution with `n` trials and
success probability `p`, evaluated at the integer `m`
(`Binomial::new(n, p).distribution(m)`). -/
def binomCdf (n : ℕ) (p : ℚ) (m : ℕ) : ℚ :=
  ∑ k ∈ Finset.range (m + 1), (n.choose k : ℚ) * p ^ k * (1 - p) ^ (n - k)

/-- `uniform_pvalue` (inner.rs lines 189-197): 0 on the empty slice,
otherwise the binomial CDF with `n` the total count and `p = 1/len`,
evaluated at the minimum per-worker count. -/
def uniform_pvalue (vals : List ℕ) : ℚ :=
  if vals.isEmpty then 0
  else binomCdf vals.sum (1 / (vals.length : ℚ)) ((vals.min?).getD 0)

/-- One step of `Iterator::min_by_key` on the enumerated counts: keep
the earlier element unless the new head is strictly smaller (ties keep
the first, as `min_by_key` does). -/
def minByStep (c : ℕ) : Option (ℕ × ℕ) → Option (ℕ × ℕ)
  | none => some (0, c)
  | some (j, d) => if c ≤ d then some (0, c) else some (j + 1, d)

/-- `workers.iter().enumerate().min_by_key(...)` (inner.rs lines
151-160): the first index attaining the minimal count, with that
count. -/
def minByKeyIdx : List ℕ → Option (ℕ × ℕ)
  | [] => none
  | c :: rest => minByStep c (minByKeyIdx rest)

/-- The fired worker's index (`worst_worker_id`); the `.expect` never
fires because the loop always has at least one worker. -/
def worstIndex (vals : List ℕ) : ℕ :=
  match minByKeyIdx vals with
  | none => 0
  | some (j, _) => j

/-- `fired_workers.push_back(worst_worker)` followed by
`if fired_workers.len() > workers.len() { fired_workers.pop_front(); }`
(inner.rs lines 171-174); `n` is the live-worker count. -/
def pushFired (fired : List ℕ) (x : ℕ) (n : ℕ) : List ℕ :=
  if n < (fired ++ [x]).length then (fired ++ [x]).drop 1 else fired ++ [x]

/-- Dispatcher state at a reset interval: each live worker's received
count, the fired-worker FIFO (front at the head; entries stand in for
the retired worker handles, recorded by their final counts), and the
`just_respawned` flag. -/
structure DispatchState where
  workers : List ℕ
  fired : List ℕ
  just_respawned : Bool
deriving DecidableEq

/-- One firing of the reset-interval branch of the uploader loop
(inner.rs lines 136-177): if `just_respawned`, only reset all counters
and clear the flag; otherwise fire the first minimum-count worker —
replacing it with a fresh worker whose count is 0 and pushing the old
one onto the bounded FIFO — exactly when `uniform_pvalue < 0.01`. -/
def resetStep (s : DispatchState) : DispatchState :=
  match s.just_respawned with
  | true =>
    { s with workers := s.workers.map (fun _ => 0), just_respawned := false }
  | false =>
    if uniform_pvalue s.workers < 1 / 100 then
      { workers := s.workers.set (worstIndex s.workers) 0,
        fired := pushFired s.fired (s.workers.getD (worstIndex s.workers) 0)
          (s.workers.set (worstIndex s.workers) 0).length,
        just_respawned := true }
    else s

theorem minByKeyIdx_spec (vals : List ℕ) (h : vals ≠ []) :
    ∃ j d, minByKeyIdx vals = some (j, d) ∧ vals.getD j 0 = d ∧
      ∀ c ∈ vals, d ≤ c := by
  induction vals with
  | nil => exact absurd rfl h
  | cons c rest ih =>
    cases rest with
    | nil =>
      exact ⟨0, c, rfl, rfl, by simp⟩
    | cons c2 rest2 =>
      obtain ⟨j, d, hj, hget, hmin⟩ := ih (by simp)
      by_cases hc : c ≤ d
      · refine ⟨0, c, ?_, rfl, ?_⟩
        · show minByStep c (minByKeyIdx (c2 :: rest2)) = some (0, c)
          rw [hj]
          simp [minByStep, hc]
        · intro x hx
          rcases List.mem_cons.1 hx with rfl | hx
          · exact le_refl x
          · exact le_trans hc (hmin x hx)
      · refine ⟨j + 1, d, ?_, ?_, ?_⟩
        · show minByStep c (minByKeyIdx (c2 :: rest2)) = some (j + 1, d)
          rw [hj]
          simp [minByStep, hc]
        · simpa using hget
        · intro x hx
          rcases List.mem_cons.1 hx with rfl | hx
          · omega
          · exact hmin x hx

theorem pushFired_length {fired : List ℕ} {x n : ℕ} (h : fired.length ≤ n) :
    (pushFired fired x n).length ≤ n := by
  rw [pushFired]
  split
  · simp only [List.length_drop, List.length_append, List.length_singleton]
    omega
  · rename_i hc
    simp only [List.length_append, List.length_singleton] at hc ⊢
    omega

/-- **C9.** At each reset interval: an interval immediately after a
replacement only zeroes the counters and clears the flag; otherwise
the lower-tail binomial CDF with success probability `1/N` over the
total received count, evaluated at the minimum per-worker count, is
compared against 0.01, and exactly when it is below, the first
minimum-count worker is replaced by a fresh (zero-count) worker while
the fired FIFO stays bounded by the live-worker count; when the
p-value is not below 0.01 nothing changes; and for counts
`[0, 30, 28, 32]` the p-value `(3/4)^90` is below 0.01 and worker 0 is
the one fired. -/
theorem claim_C9_shard_dispatcher (s : DispatchState)
    (hne : s.workers ≠ []) (hb : s.fired.length ≤ s.workers.length) :
    (s.just_respawned = true →
      resetStep s = { s with workers := s.workers.map (fun _ => 0),
                             just_respawned := false }) ∧
    (s.just_respawned = false → uniform_pvalue s.workers < 1 / 100 →
      (resetStep s).workers = s.workers.set (worstIndex s.workers) 0 ∧
      (∀ c ∈ s.workers, s.workers.getD (worstIndex s.workers) 0 ≤ c) ∧
      (resetStep s).just_respawned = true ∧
      (resetStep s).fired.length ≤ (resetStep s).workers.length) ∧
    (s.just_respawned = false → ¬ uniform_pvalue s.workers < 1 / 100 →
      resetStep s = s) ∧
    uniform_pvalue [0, 30, 28, 32] < 1 / 100 ∧
    worstIndex [0, 30, 28, 32] = 0 := by
  refine ⟨?_, ?_, ?_, ?_, by decide⟩
  · intro h
    simp only [resetStep, h]
  · intro h hp
    obtain ⟨j, d, hj, hget, hmin⟩ := minByKeyIdx_spec s.workers hne
    have hw : worstIndex s.workers = j := by
      simp only [worstIndex, hj]
    have hstep : resetStep s =
        { workers := s.workers.set (worstIndex s.workers) 0,
          fired := pushFired s.fired (s.workers.getD (worstIndex s.workers) 0)
            (s.workers.set (worstIndex s.workers) 0).length,
          just_respawned := true } := by
      simp only [resetStep, h, if_pos hp]
    refine ⟨by rw [hstep], ?_, by rw [hstep], ?_⟩
    · intro x hx
      rw [hw, hget]
      exact hmin x hx
    · rw [hstep]
      dsimp only
      exact pushFired_length (by rw [List.length_set]; exact hb)
  · intro h hp
    simp only [resetStep, h, if_neg hp]
  · rw [show uniform_pvalue [0, 30, 28, 32] =
        binomCdf 90 (1 / ((4 : ℕ) : ℚ)) 0 from rfl]
    simp only [binomCdf, Finset.sum_range_one, Nat.choose_zero_right,
      Nat.cast_one, pow_zero, one_mul, mul_one, Nat.sub_zero]
    push_cast
    norm_num

/-- Witness for C9: on the concrete state with counts
`[0, 30, 28, 32]`, empty FIFO and the flag clear, one reset step fires
worker 0, zeroing its slot and setting the flag. -/
theorem claim_C9_shard_dispatcher_witness :
    (resetStep ⟨[0, 30, 28, 32], [], false⟩).workers = [0, 30, 28, 32] ∧
    (resetStep ⟨[0, 30, 28, 32], [], false⟩).just_respawned = true := by
  have h := claim_C9_shard_dispatcher ⟨[0, 30, 28, 32], [], false⟩
    (by decide) (by decide)
  obtain ⟨hwk, _, hj, _⟩ := h.2.1 rfl h.2.2.2.1
  refine ⟨?_, hj⟩
  rw [hwk]
  dsimp only
  rw [h.2.2.2.2]
  decide

end Sosistab
